import Mathlib

/-
Verification of the CFG builder/finalizer (crates/build-hir/src/builder.rs) and the
scope analyzer (crates/forget_semantic_analysis/src/analyzer.rs).

Machine integers: all ids (block ids, instruction ids, declaration ids, ...) are
monotonically minted counters that never wrap in practice; they are modelled as Nat.

Rust panics (assert!, unwrap, the `invariant` helper, unreachable code paths) and
out-of-fuel recursion are modelled as `Option.none`; fallible functions return Option.

The Rust `IndexMap` is modelled as an insertion-ordered association list
`List (BlockId × BasicBlock)`; `HashSet` is modelled as a `List` with
insert-if-absent, membership being the only observable.
-/

namespace Spec2Proof

abbrev BlockId := Nat

/-- Goto kinds, from the hir crate (`GotoKind::{Break, Continue}`). -/
inductive GotoKind
  | Break
  | Continue
deriving DecidableEq

/-- Block kinds. The builder only ever inspects these opaquely; the exact set of
variants is irrelevant to the claims, two suffice to exercise `next_kind`. -/
inductive BlockKind
  | Block
  | Loop
deriving DecidableEq

/-- Instructions: `Instruction { id, lvalue, value }`. The `lvalue : Place` and
`value : InstructionValue` payloads are never inspected by the finalizer, only the
`id` is; they are modelled as opaque numbers. -/
structure Instruction where
  id : Nat
  lvalue : Nat
  value : Nat
deriving DecidableEq

/-- Terminal values, shapes following spec §3: If{consequent, alternate},
For{init, body, update?}, DoWhile{body, test}, Goto{block, kind}, Return.
Per spec §4.2 a terminal may also carry an optional `fallthrough` successor
(absent on Goto/Return, which have fixed control flow). -/
inductive TerminalValue
  | ifT (consequent : BlockId) (alternate : BlockId) (fallthrough : Option BlockId)
  | forT (init : BlockId) (body : BlockId) (update : Option BlockId)
      (fallthrough : Option BlockId)
  | doWhileT (body : BlockId) (test : BlockId) (fallthrough : Option BlockId)
  | gotoT (block : BlockId) (kind : GotoKind)
  | returnT
deriving DecidableEq

/-- A terminal: `Terminal { id, value }`. -/
structure Terminal where
  id : Nat
  value : TerminalValue
deriving DecidableEq

/-- A basic block: `BasicBlock { id, kind, instructions, terminal, predecessors }`.
The predecessor `HashSet<BlockId>` is modelled as a list with set semantics. -/
structure BasicBlock where
  id : BlockId
  kind : BlockKind
  instructions : List Instruction
  terminal : Terminal
  predecessors : List BlockId
deriving DecidableEq

/-- The HIR: `HIR { entry, blocks }` where `blocks` is an insertion-ordered map. -/
structure HIR where
  entry : BlockId
  blocks : List (BlockId × BasicBlock)
deriving DecidableEq

/-- Ordered-map lookup: the value of the first entry with the given key. -/
def mapLookup {β : Type} : List (BlockId × β) → BlockId → Option β
  | [], _ => none
  | (k, v) :: rest, id => if id = k then some v else mapLookup rest id

/-- Lookup of a block by id (`hir.block(id)` / `hir.block_mut(id)`; absence is a
panic in Rust, surfaced as `none` at each use site here). -/
def lookupBlock (hir : HIR) (id : BlockId) : Option BasicBlock :=
  mapLookup hir.blocks id

/-- The key list of the ordered block map. -/
def keysOf (blocks : List (BlockId × BasicBlock)) : List BlockId :=
  blocks.map (·.1)

/-- Child edges followed by the reordering walk in `reverse_postorder_blocks`,
in the exact source order: If visits alternate then consequent; For visits only
init; DoWhile visits only body; Goto visits its target; Return visits nothing. -/
def walkChildren : TerminalValue → List BlockId
  | .ifT consequent alternate _ => [alternate, consequent]
  | .forT init _ _ _ => [init]
  | .doWhileT body _ _ => [body]
  | .gotoT block _ => [block]
  | .returnT => []

/-- Modelled from the spec: `TerminalValue::successors()` is not under src/ (it
lives in the hir crate); spec §3 lists the CFG edges per terminal as
If{consequent, alternate}, For{init, body, update?}, DoWhile{body, test},
Goto{target}, Return{}. -/
def successors : TerminalValue → List BlockId
  | .ifT consequent alternate _ => [consequent, alternate]
  | .forT init body update _ => init :: body :: update.toList
  | .doWhileT body test _ => [body, test]
  | .gotoT block _ => [block]
  | .returnT => []

/-- Modelled from the spec: `TerminalValue::map_optional_fallthroughs` is not
under src/; per spec §4.2 it rewrites each optional fallthrough successor of the
terminal through the supplied function. -/
def mapOptionalFallthroughs (f : BlockId → Option BlockId) :
    TerminalValue → TerminalValue
  | .ifT consequent alternate fallthrough => .ifT consequent alternate (fallthrough.bind f)
  | .forT init body update fallthrough => .forT init body update (fallthrough.bind f)
  | .doWhileT body test fallthrough => .doWhileT body test (fallthrough.bind f)
  | .gotoT block kind => .gotoT block kind
  | .returnT => .returnT

/- ===== Stage 1: reverse_postorder_blocks ===== -/

/-- State of the depth-first walk: the `visited` set (as a list) and the
accumulated postorder list. -/
structure POState where
  visited : List BlockId
  postorder : List BlockId
deriving DecidableEq

/-- Sequential traversal of a list of child block ids, threading the walk state;
a failing child visit aborts (models the panic propagating). -/
def visitAll (f : BlockId → POState → Option POState) :
    List BlockId → POState → Option POState
  | [], s => some s
  | b :: rest, s =>
    match f b s with
    | none => none
    | some s1 => visitAll f rest s1

/-- The recursive `visit` of `reverse_postorder_blocks`: skip if already visited,
otherwise mark visited, visit the terminal-specific children (`walkChildren`,
in source order), then append the block to the postorder list. Recursion in the
Rust source is direct; here it is driven by fuel, with fuel exhaustion mapped to
`none` (the top-level call supplies enough fuel for any input that the Rust code
would terminate on). -/
def visitPO (hir : HIR) : Nat → BlockId → POState → Option POState
  | 0, _, _ => none
  | fuel + 1, blockId, s =>
    if s.visited.contains blockId then some s
    else
      match lookupBlock hir blockId with
      | none => none
      | some block =>
        match
          visitAll (visitPO hir fuel) (walkChildren block.terminal.value)
            { s with visited := blockId :: s.visited }
        with
        | none => none
        | some s2 => some { s2 with postorder := s2.postorder ++ [blockId] }

/-- Fuel that is always sufficient: one more than the number of blocks. -/
def poFuel (hir : HIR) : Nat :=
  hir.blocks.length + 1

/-- The postorder list computed by the walk from the entry block. -/
def postorderOf (hir : HIR) : Option (List BlockId) :=
  (visitPO hir (poFuel hir) hir.entry ⟨[], []⟩).map POState.postorder

/-- Rebuilding the block map in the given key order, taking each block from the
original map (`hir.blocks.remove(&id).unwrap()`; the ids handed in are distinct,
so removal from the shrinking map returns the same block as lookup in the
original map; a missing id is the `unwrap` panic). -/
def rebuildBlocks (hir : HIR) : List BlockId → Option (List (BlockId × BasicBlock))
  | [] => some []
  | id :: rest =>
    match lookupBlock hir id, rebuildBlocks hir rest with
    | some b, some bs => some ((id, b) :: bs)
    | _, _ => none

/-- Stage 1 of finalization, `reverse_postorder_blocks`: walk depth-first from
the entry block, then rebuild the block map in reverse postorder. -/
def reversePostorderBlocks (hir : HIR) : Option HIR :=
  match postorderOf hir with
  | none => none
  | some postorder =>
    match rebuildBlocks hir postorder.reverse with
    | none => none
    | some blocks => some { hir with blocks := blocks }

/- ===== Stages 2-4: pruning ===== -/

/-- Stage 2, `remove_unreachable_for_updates`: clear `For.update` targets that
are absent from the (reordered) block map. -/
def removeUnreachableForUpdates (hir : HIR) : HIR :=
  let blockIds := keysOf hir.blocks
  { hir with
    blocks := hir.blocks.map (fun kb =>
      match kb.2.terminal.value with
      | .forT init body update fallthrough =>
        (kb.1,
          { kb.2 with
            terminal :=
              { kb.2.terminal with
                value :=
                  .forT init body (update.filter (fun u => blockIds.contains u))
                    fallthrough } })
      | _ => kb) }

/-- Stage 3, `remove_unreachable_fallthroughs`: clear optional fallthrough
successors whose block is absent from the map. -/
def removeUnreachableFallthroughs (hir : HIR) : HIR :=
  let blockIds := keysOf hir.blocks
  { hir with
    blocks := hir.blocks.map (fun kb =>
      (kb.1,
        { kb.2 with
          terminal :=
            { kb.2.terminal with
              value :=
                mapOptionalFallthroughs
                  (fun fallthrough =>
                    if blockIds.contains fallthrough then some fallthrough else none)
                  kb.2.terminal.value } })) }

/-- Stage 4, `remove_unreachable_do_while_statements`: a DoWhile whose test
block is absent from the map is rewritten to a Break-kind Goto targeting the
loop body; the terminal id is kept (only `.value` is assigned in the source). -/
def removeUnreachableDoWhileStatements (hir : HIR) : HIR :=
  let blockIds := keysOf hir.blocks
  { hir with
    blocks := hir.blocks.map (fun kb =>
      match kb.2.terminal.value with
      | .doWhileT body test _ =>
        if blockIds.contains test then kb
        else
          (kb.1,
            { kb.2 with
              terminal := { kb.2.terminal with value := .gotoT body .Break } })
      | _ => kb) }

/- ===== Stage 5: mark_instruction_ids ===== -/

/-- Inner loop of `mark_instruction_ids` over one block's instructions: checks
and records each (block index, instruction index) slot in the `visited` set and
assigns fresh sequential ids; a slot seen twice is the `invariant` panic. -/
def markInstrs (blockIx : Nat) :
    Nat → Nat → List (Nat × Nat) → List Instruction →
    Option (List Instruction × Nat × List (Nat × Nat))
  | _, counter, visited, [] => some ([], counter, visited)
  | instrIx, counter, visited, instr :: rest =>
    if visited.contains (blockIx, instrIx) then none
    else
      match markInstrs blockIx (instrIx + 1) (counter + 1) ((blockIx, instrIx) :: visited) rest with
      | none => none
      | some (rest', counter', visited') =>
        some ({ instr with id := counter } :: rest', counter', visited')

/-- Outer loop of `mark_instruction_ids` over the blocks in map order: number
each block's instructions, then its terminal. -/
def markBlocks :
    Nat → Nat → List (Nat × Nat) → List (BlockId × BasicBlock) →
    Option (List (BlockId × BasicBlock))
  | _, _, _, [] => some []
  | blockIx, counter, visited, (id, block) :: rest =>
    match markInstrs blockIx 0 counter visited block.instructions with
    | none => none
    | some (instructions', counter', visited') =>
      match markBlocks (blockIx + 1) (counter' + 1) visited' rest with
      | none => none
      | some rest' =>
        some
          ((id,
              { block with
                instructions := instructions'
                terminal := { block.terminal with id := counter' } }) :: rest')

/-- Stage 5, `mark_instruction_ids`: renumber every instruction and terminal
with a fresh `InstructionIdGenerator` (modelled as a counter starting at 0),
walking blocks in map order; instructions first, then the terminal. -/
def markInstructionIds (hir : HIR) : Option HIR :=
  match markBlocks 0 0 [] hir.blocks with
  | none => none
  | some blocks => some { hir with blocks := blocks }

/- ===== Stage 6: mark_predecessors ===== -/

/-- Predecessor-set insertion (`HashSet::insert`). -/
def insertPred (p : BlockId) (preds : List BlockId) : List BlockId :=
  if preds.contains p then preds else p :: preds

/-- Pointwise update of one block in the ordered map, preserving key order. -/
def updateBlock (blocks : List (BlockId × BasicBlock)) (id : BlockId)
    (f : BasicBlock → BasicBlock) : List (BlockId × BasicBlock) :=
  blocks.map (fun kb => if kb.1 = id then (kb.1, f kb.2) else kb)

/-- Clearing every predecessor set (first loop of `mark_predecessors`). -/
def clearPredecessors (hir : HIR) : HIR :=
  { hir with blocks := hir.blocks.map (fun kb => (kb.1, { kb.2 with predecessors := [] })) }

/-- State of the predecessor walk: the HIR being mutated plus the visited set. -/
structure PredState where
  hir : HIR
  visited : List BlockId
deriving DecidableEq

/-- Sequential traversal of a successor list for the predecessor walk. -/
def predAll (f : BlockId → PredState → Option PredState) :
    List BlockId → PredState → Option PredState
  | [], s => some s
  | b :: rest, s =>
    match f b s with
    | none => none
    | some s1 => predAll f rest s1

/-- The recursive `visit` of `mark_predecessors`: look the block up (panic if
absent), first record the incoming edge from `prev` (if any) into the block's
predecessor set, then check the visited set and stop if already visited,
otherwise descend into the block's successors with this block as `prev`. -/
def visitPred (fullHir : HIR) : Nat → Option BlockId → BlockId → PredState → Option PredState
  | 0, _, _, _ => none
  | fuel + 1, prev, blockId, s =>
    match lookupBlock s.hir blockId with
    | none => none
    | some block =>
      let s1 : PredState :=
        match prev with
        | some p =>
          { s with
            hir :=
              { s.hir with
                blocks :=
                  updateBlock s.hir.blocks blockId (fun blk =>
                    { blk with predecessors := insertPred p blk.predecessors }) } }
        | none => s
      if s1.visited.contains blockId then some s1
      else
        predAll (fun succ => visitPred fullHir fuel (some blockId) succ)
          (successors block.terminal.value) { s1 with visited := blockId :: s1.visited }

/-- Stage 6, `mark_predecessors`: clear all predecessor sets, then walk
depth-first from the entry block recording every traversed edge. -/
def markPredecessors (hir : HIR) : Option HIR :=
  let cleared := clearPredecessors hir
  match visitPred cleared (poFuel hir) none hir.entry ⟨cleared, []⟩ with
  | none => none
  | some s => some s.hir

/- ===== The build pipeline ===== -/

/-- The finalization pipeline of `Builder::build`, applied to the completed
block map: each stage is preceded by the source's non-emptiness assertion
(`assert!(hir.blocks.len() > 0, ...)`, modelled as `none` on failure). -/
def finalize (entry : BlockId) (completed : List (BlockId × BasicBlock)) : Option HIR :=
  let hir : HIR := ⟨entry, completed⟩
  if hir.blocks.length = 0 then none
  else
    match reversePostorderBlocks hir with
    | none => none
    | some hir1 =>
      if hir1.blocks.length = 0 then none
      else
        let hir2 := removeUnreachableForUpdates hir1
        if hir2.blocks.length = 0 then none
        else
          let hir3 := removeUnreachableFallthroughs hir2
          if hir3.blocks.length = 0 then none
          else
            let hir4 := removeUnreachableDoWhileStatements hir3
            if hir4.blocks.length = 0 then none
            else
              match markInstructionIds hir4 with
              | none => none
              | some hir5 =>
                if hir5.blocks.length = 0 then none
                else
                  match markPredecessors hir5 with
                  | none => none
                  | some hir6 => if hir6.blocks.length = 0 then none else some hir6

/- ===== The builder state machine ===== -/

/-- The per-compilation-unit environment: the block id generator (the other
generators in the Rust environment are irrelevant to the builder claims). -/
structure Environment where
  nextBlockId : Nat
deriving DecidableEq

/-- The work-in-progress block. -/
structure WipBlock where
  id : BlockId
  kind : BlockKind
  instructions : List Instruction
deriving DecidableEq

/-- The builder: environment, completed ordered block map, entry id, wip block,
and the instruction id generator (a counter). The shared environment is held by
value here: the builder is the only writer during a single construction. -/
structure Builder where
  environment : Environment
  completed : List (BlockId × BasicBlock)
  entry : BlockId
  wip : WipBlock
  idGen : Nat
deriving DecidableEq

/-- `IndexMap::insert`: replace in place if the key exists, else append. -/
def indexMapInsert (m : List (BlockId × BasicBlock)) (k : BlockId) (v : BasicBlock) :
    List (BlockId × BasicBlock) :=
  if (mapLookup m k).isSome then m.map (fun kv => if kv.1 = k then (k, v) else kv)
  else m ++ [(k, v)]

/-- `Builder::new`: mint the entry block id and open it as the wip block. -/
def Builder.new (env : Environment) : Builder :=
  let entry := env.nextBlockId
  { environment := ⟨env.nextBlockId + 1⟩
    completed := []
    entry := entry
    wip := ⟨entry, .Block, []⟩
    idGen := 0 }

/-- `Builder::push`: append an instruction with a fresh id to the wip block. -/
def Builder.push (b : Builder) (lvalue : Nat) (value : Nat) : Builder :=
  { b with
    wip := { b.wip with instructions := b.wip.instructions ++ [⟨b.idGen, lvalue, value⟩] }
    idGen := b.idGen + 1 }

/-- `Builder::terminate`: freeze the wip block (empty predecessor set) into the
completed map under its id, with a fresh terminal id, and open a new wip block
of the requested kind with a fresh block id. -/
def Builder.terminate (b : Builder) (terminal : TerminalValue) (nextKind : BlockKind) :
    Builder :=
  let nextWip : WipBlock := ⟨b.environment.nextBlockId, nextKind, []⟩
  { b with
    environment := ⟨b.environment.nextBlockId + 1⟩
    wip := nextWip
    idGen := b.idGen + 1
    completed :=
      indexMapInsert b.completed b.wip.id
        ⟨b.wip.id, b.wip.kind, b.wip.instructions, ⟨b.idGen, terminal⟩, []⟩ }

/-- `Builder::build`: hand the completed map to the finalization pipeline. -/
def Builder.build (b : Builder) : Option HIR :=
  finalize b.entry b.completed

/-- One driver operation against the builder. -/
inductive BuilderOp
  | push (lvalue : Nat) (value : Nat)
  | terminate (terminal : TerminalValue) (nextKind : BlockKind)

/-- Running a sequence of driver operations. -/
def runOps (b : Builder) : List BuilderOp → Builder
  | [] => b
  | .push lv v :: rest => runOps (b.push lv v) rest
  | .terminate t k :: rest => runOps (b.terminate t k) rest

/- ===== Basic facts about the ordered-map model ===== -/

theorem mapLookup_isSome_iff {β : Type} (m : List (BlockId × β)) (k : BlockId) :
    (mapLookup m k).isSome ↔ k ∈ m.map (·.1) := by
  induction m with
  | nil => simp [mapLookup]
  | cons kv rest ih =>
    obtain ⟨k0, v0⟩ := kv
    by_cases h : k = k0 <;> simp [mapLookup, h, ih]

theorem mapLookup_mem {β : Type} {m : List (BlockId × β)} {k : BlockId} {v : β}
    (h : mapLookup m k = some v) : (k, v) ∈ m := by
  induction m with
  | nil => simp [mapLookup] at h
  | cons kv rest ih =>
    obtain ⟨k0, v0⟩ := kv
    rw [mapLookup] at h
    by_cases hk : k = k0
    · simp only [if_pos hk] at h
      cases h
      subst hk
      exact List.mem_cons_self _ _
    · simp only [if_neg hk] at h
      exact List.mem_cons_of_mem _ (ih h)

theorem mem_keysOf {blocks : List (BlockId × BasicBlock)} {k : BlockId} {b : BasicBlock}
    (h : (k, b) ∈ blocks) : k ∈ keysOf blocks := by
  unfold keysOf
  exact List.mem_map_of_mem _ h

theorem keysOf_contains_iff (blocks : List (BlockId × BasicBlock)) (k : BlockId) :
    (keysOf blocks).contains k = true ↔ k ∈ keysOf blocks := by
  simp [List.contains]

/- ===== Claim C4: degradation of unreachable DoWhile terminals ===== -/

/-- C4: during the DoWhile-degradation stage, every block whose terminal is a
DoWhile whose test block is absent from the block map has its terminal replaced
by a Break-kind Goto targeting the DoWhile body (keeping the terminal id), and
every block whose DoWhile test block is present is left unchanged. -/
theorem dowhile_degradation (hir : HIR) (id : BlockId) (b : BasicBlock)
    (body test : BlockId) (ft : Option BlockId)
    (hmem : (id, b) ∈ hir.blocks)
    (hterm : b.terminal.value = .doWhileT body test ft) :
    (test ∉ keysOf hir.blocks →
      (id, { b with terminal := { b.terminal with value := .gotoT body .Break } })
        ∈ (removeUnreachableDoWhileStatements hir).blocks) ∧
    (test ∈ keysOf hir.blocks →
      (id, b) ∈ (removeUnreachableDoWhileStatements hir).blocks) := by
  unfold removeUnreachableDoWhileStatements
  constructor
  · intro habs
    have := List.mem_map_of_mem
      (fun kb : BlockId × BasicBlock =>
        match kb.2.terminal.value with
        | .doWhileT body test _ =>
          if (keysOf hir.blocks).contains test then kb
          else
            (kb.1,
              { kb.2 with
                terminal := { kb.2.terminal with value := .gotoT body .Break } })
        | _ => kb) hmem
    simpa [hterm, habs] using this
  · intro hpres
    have := List.mem_map_of_mem
      (fun kb : BlockId × BasicBlock =>
        match kb.2.terminal.value with
        | .doWhileT body test _ =>
          if (keysOf hir.blocks).contains test then kb
          else
            (kb.1,
              { kb.2 with
                terminal := { kb.2.terminal with value := .gotoT body .Break } })
        | _ => kb) hmem
    simpa [hterm, hpres] using this

/-- A degradable loop header: block 0 ends in DoWhile with body 1 and absent test 2. -/
def dwBlock0 : BasicBlock :=
  ⟨0, .Loop, [], ⟨7, .doWhileT 1 2 none⟩, []⟩

/-- The expected degraded form of `dwBlock0`. -/
def dwBlock0degraded : BasicBlock :=
  ⟨0, .Loop, [], ⟨7, .gotoT 1 .Break⟩, []⟩

/-- A returning block. -/
def dwBlock1 : BasicBlock :=
  ⟨1, .Block, [], ⟨8, .returnT⟩, []⟩

/-- A concrete two-block HIR: block 0 ends in `do-while` whose test block 2 is
absent from the map, block 1 returns. -/
def dwExampleHIR : HIR :=
  ⟨0, [(0, dwBlock0), (1, dwBlock1)]⟩

theorem dowhile_degradation_witness :
    (0, dwBlock0) ∈ dwExampleHIR.blocks ∧
    dwBlock0.terminal.value = TerminalValue.doWhileT 1 2 none ∧
    (2 : BlockId) ∉ keysOf dwExampleHIR.blocks ∧
    (0, dwBlock0degraded) ∈ (removeUnreachableDoWhileStatements dwExampleHIR).blocks :=
  ⟨by decide, rfl, by decide,
    (dowhile_degradation dwExampleHIR 0 dwBlock0 1 2 none (by decide) rfl).1 (by decide)⟩

/- ===== Claim C9: the renumbering invariant never fires ===== -/

theorem markInstrs_sound (blockIx : Nat) :
    ∀ (instrs : List Instruction) (instrIx counter : Nat) (visited : List (Nat × Nat)),
    (∀ p ∈ visited, p.1 < blockIx ∨ (p.1 = blockIx ∧ p.2 < instrIx)) →
    ∃ instrs' counter' visited',
      markInstrs blockIx instrIx counter visited instrs = some (instrs', counter', visited') ∧
      (∀ p ∈ visited', p.1 < blockIx ∨ (p.1 = blockIx ∧ p.2 < instrIx + instrs.length)) ∧
      counter' = counter + instrs.length ∧
      instrs'.map Instruction.id = List.range' counter instrs.length := by
  intro instrs
  induction instrs with
  | nil =>
    intro instrIx counter visited hv
    refine ⟨[], counter, visited, rfl, ?_, rfl, rfl⟩
    intro p hp
    rcases hv p hp with h | ⟨h1, h2⟩
    · exact Or.inl h
    · exact Or.inr ⟨h1, Nat.lt_of_lt_of_le h2 (Nat.le_add_right _ _)⟩
  | cons instr rest ih =>
    intro instrIx counter visited hv
    have hnotmem : (blockIx, instrIx) ∉ visited := by
      intro hmem
      rcases hv _ hmem with h | ⟨_, h2⟩
      · exact Nat.lt_irrefl _ h
      · exact Nat.lt_irrefl _ h2
    have hcontains : visited.contains (blockIx, instrIx) = false := by
      cases hc : visited.contains (blockIx, instrIx)
      · rfl
      · exact absurd (by simpa [List.contains] using hc) hnotmem
    have hv' : ∀ p ∈ ((blockIx, instrIx) :: visited),
        p.1 < blockIx ∨ (p.1 = blockIx ∧ p.2 < instrIx + 1) := by
      intro p hp
      rcases List.mem_cons.mp hp with h | h
      · subst h
        exact Or.inr ⟨rfl, Nat.lt_succ_self _⟩
      · rcases hv p h with h1 | ⟨h1, h2⟩
        · exact Or.inl h1
        · exact Or.inr ⟨h1, Nat.lt_succ_of_lt h2⟩
    obtain ⟨rest', counter', visited', heq, hbound, hcount, hids⟩ :=
      ih (instrIx + 1) (counter + 1) ((blockIx, instrIx) :: visited) hv'
    refine ⟨{ instr with id := counter } :: rest', counter', visited', ?_, ?_, ?_, ?_⟩
    · rw [markInstrs, hcontains]
      simp only [Bool.false_eq_true, if_false, heq]
    · intro p hp
      rcases hbound p hp with h | ⟨h1, h2⟩
      · exact Or.inl h
      · exact Or.inr ⟨h1, by simp only [List.length_cons]; omega⟩
    · simp only [List.length_cons]
      omega
    · simp only [List.map, hids, List.length_cons]
      rw [List.range'_succ]

/-- The flattened id sequence of a block: instruction ids then the terminal id. -/
def blockIdSeq (b : BasicBlock) : List Nat :=
  b.instructions.map Instruction.id ++ [b.terminal.id]

/-- The flattened id sequence of a whole ordered block map. -/
def flatIds (blocks : List (BlockId × BasicBlock)) : List Nat :=
  (blocks.map (fun kb => blockIdSeq kb.2)).flatten

/-- Total length of the flattened id sequence. -/
def flatLen (blocks : List (BlockId × BasicBlock)) : Nat :=
  (blocks.map (fun kb => kb.2.instructions.length + 1)).sum

theorem markBlocks_sound :
    ∀ (blocks : List (BlockId × BasicBlock)) (blockIx counter : Nat)
      (visited : List (Nat × Nat)),
    (∀ p ∈ visited, p.1 < blockIx) →
    ∃ blocks',
      markBlocks blockIx counter visited blocks = some blocks' ∧
      flatIds blocks' = List.range' counter (flatLen blocks) ∧
      keysOf blocks' = keysOf blocks := by
  intro blocks
  induction blocks with
  | nil =>
    intro blockIx counter visited hv
    exact ⟨[], rfl, rfl, rfl⟩
  | cons kb rest ih =>
    obtain ⟨id, block⟩ := kb
    intro blockIx counter visited hv
    have hv0 : ∀ p ∈ visited, p.1 < blockIx ∨ (p.1 = blockIx ∧ p.2 < 0) := by
      intro p hp
      exact Or.inl (hv p hp)
    obtain ⟨instrs', counter', visited', heq, hbound, hcount, hids⟩ :=
      markInstrs_sound blockIx block.instructions 0 counter visited hv0
    have hv' : ∀ p ∈ visited', p.1 < blockIx + 1 := by
      intro p hp
      rcases hbound p hp with h | ⟨h1, _⟩
      · exact Nat.lt_succ_of_lt h
      · omega
    obtain ⟨rest', heqr, hidr, hkeysr⟩ := ih (blockIx + 1) (counter' + 1) visited' hv'
    refine ⟨(id, { block with
        instructions := instrs'
        terminal := { block.terminal with id := counter' } }) :: rest', ?_, ?_, ?_⟩
    · simp only [markBlocks, heq, heqr]
    · show blockIdSeq _ ++ flatIds rest' = _
      rw [hidr]
      unfold blockIdSeq
      simp only [hids]
      show List.range' counter block.instructions.length ++ [counter'] ++
        List.range' (counter' + 1) (flatLen rest) =
        List.range' counter (flatLen ((id, block) :: rest))
      have h1 : flatLen ((id, block) :: rest) =
          (block.instructions.length + 1) + flatLen rest := rfl
      rw [h1, hcount]
      rw [List.append_assoc]
      have h2 : [counter + block.instructions.length] ++
          List.range' (counter + block.instructions.length + 1) (flatLen rest) =
          List.range' (counter + block.instructions.length) (flatLen rest + 1) := by
        rw [List.range'_succ]
        rfl
      rw [h2]
      have h3 := List.range'_append counter block.instructions.length (flatLen rest + 1) 1
      simp only [Nat.one_mul, Nat.mul_one] at h3
      rw [h3]
      congr 1
      omega
    · show id :: keysOf rest' = id :: keysOf rest
      rw [hkeysr]

/-- C9: the fatal-error branch of `mark_instruction_ids` is unreachable: the
(block index, instruction index) visited check always succeeds, so the stage
returns Ok on every input block map. -/
theorem mark_instruction_ids_total (hir : HIR) :
    ∃ hir', markInstructionIds hir = some hir' := by
  obtain ⟨blocks', heq, _, _⟩ :=
    markBlocks_sound hir.blocks 0 0 [] (by intro p hp; simp at hp)
  exact ⟨{ hir with blocks := blocks' }, by rw [markInstructionIds, heq]⟩

/- ===== Frame lemmas: mark_predecessors only touches predecessor sets ===== -/

/-- Erasure of the predecessor sets, used to state that a transformation leaves
everything else (keys, order, instructions, terminals) unchanged. -/
def stripPreds (blocks : List (BlockId × BasicBlock)) : List (BlockId × BasicBlock) :=
  blocks.map (fun kb => (kb.1, { kb.2 with predecessors := [] }))

theorem stripPreds_updateBlock_preds (blocks : List (BlockId × BasicBlock))
    (id : BlockId) (p : BlockId) :
    stripPreds (updateBlock blocks id
      (fun blk => { blk with predecessors := insertPred p blk.predecessors })) =
    stripPreds blocks := by
  unfold stripPreds updateBlock
  rw [List.map_map]
  apply List.map_congr_left
  intro kb _
  by_cases h : kb.1 = id <;> simp [h]

/-- Chaining a step-preserved binary relation through `predAll`. -/
theorem predAll_pres {P : PredState → PredState → Prop}
    (hrefl : ∀ s, P s s) (htrans : ∀ a b c, P a b → P b c → P a c)
    (f : BlockId → PredState → Option PredState)
    (hf : ∀ b s s', f b s = some s' → P s s') :
    ∀ (l : List BlockId) (s s' : PredState), predAll f l s = some s' → P s s' := by
  intro l
  induction l with
  | nil =>
    intro s s' h
    rw [predAll] at h
    cases h
    exact hrefl s
  | cons b rest ih =>
    intro s s' h
    rw [predAll] at h
    cases hfb : f b s with
    | none => rw [hfb] at h; cases h
    | some s1 =>
      rw [hfb] at h
      exact htrans _ _ _ (hf b s s1 hfb) (ih s1 s' h)

theorem visitPred_frame (fullHir : HIR) :
    ∀ (fuel : Nat) (prev : Option BlockId) (b : BlockId) (s s' : PredState),
    visitPred fullHir fuel prev b s = some s' →
    stripPreds s'.hir.blocks = stripPreds s.hir.blocks ∧ s'.hir.entry = s.hir.entry := by
  intro fuel
  induction fuel with
  | zero => intro prev b s s' h; cases h
  | succ fuel ih =>
    intro prev b s s' h
    simp only [visitPred] at h
    cases hlk : lookupBlock s.hir b with
    | none => rw [hlk] at h; cases h
    | some block =>
      rw [hlk] at h
      simp only at h
      have hstep : ∀ s1 : PredState,
          (stripPreds s1.hir.blocks = stripPreds s.hir.blocks ∧ s1.hir.entry = s.hir.entry) →
          (if s1.visited.contains b then some s1
            else predAll (fun succ => visitPred fullHir fuel (some b) succ)
              (successors block.terminal.value) { s1 with visited := b :: s1.visited }) = some s' →
          stripPreds s'.hir.blocks = stripPreds s.hir.blocks ∧ s'.hir.entry = s.hir.entry := by
        intro s1 hs1 hrun
        by_cases hv : s1.visited.contains b
        · rw [if_pos hv] at hrun
          cases hrun
          exact hs1
        · rw [if_neg hv] at hrun
          have hpa := predAll_pres
            (P := fun a c => stripPreds c.hir.blocks = stripPreds a.hir.blocks ∧
              c.hir.entry = a.hir.entry)
            (fun s => ⟨rfl, rfl⟩)
            (fun a c d h1 h2 => ⟨h2.1.trans h1.1, h2.2.trans h1.2⟩)
            _ (fun b2 s2 s2' hcall => ih (some b) b2 s2 s2' hcall)
            _ _ _ hrun
          exact ⟨hpa.1.trans hs1.1, hpa.2.trans hs1.2⟩
      cases prev with
      | none =>
        simp only at h
        exact hstep s ⟨rfl, rfl⟩ h
      | some p =>
        simp only at h
        exact hstep
          ⟨{ s.hir with
              blocks := updateBlock s.hir.blocks b
                (fun blk => { blk with predecessors := insertPred p blk.predecessors }) },
            s.visited⟩
          ⟨stripPreds_updateBlock_preds _ _ _, rfl⟩ h

theorem stripPreds_clear (hir : HIR) :
    stripPreds (clearPredecessors hir).blocks = stripPreds hir.blocks := by
  unfold stripPreds clearPredecessors
  simp [List.map_map]

theorem markPredecessors_frame (hir hir' : HIR) (h : markPredecessors hir = some hir') :
    stripPreds hir'.blocks = stripPreds hir.blocks ∧ hir'.entry = hir.entry := by
  simp only [markPredecessors] at h
  cases hrun : visitPred (clearPredecessors hir) (poFuel hir) none hir.entry
      ⟨clearPredecessors hir, []⟩ with
  | none => rw [hrun] at h; cases h
  | some s =>
    rw [hrun] at h
    cases h
    have := visitPred_frame (clearPredecessors hir) (poFuel hir) none hir.entry _ _ hrun
    exact ⟨this.1.trans (stripPreds_clear hir), this.2⟩

theorem flatIds_stripPreds (blocks : List (BlockId × BasicBlock)) :
    flatIds (stripPreds blocks) = flatIds blocks := by
  unfold flatIds stripPreds
  rw [List.map_map]
  rfl

theorem keysOf_stripPreds (blocks : List (BlockId × BasicBlock)) :
    keysOf (stripPreds blocks) = keysOf blocks := by
  unfold keysOf stripPreds
  rw [List.map_map]
  rfl

/- ===== Decomposing a successful finalize run ===== -/

theorem finalize_split (entry : BlockId) (blocks : List (BlockId × BasicBlock)) (hir' : HIR)
    (h : finalize entry blocks = some hir') :
    ∃ hir1 hir5,
      reversePostorderBlocks ⟨entry, blocks⟩ = some hir1 ∧
      markInstructionIds
        (removeUnreachableDoWhileStatements
          (removeUnreachableFallthroughs (removeUnreachableForUpdates hir1))) = some hir5 ∧
      markPredecessors hir5 = some hir' := by
  simp only [finalize] at h
  split at h
  · cases h
  · cases hrp : reversePostorderBlocks ⟨entry, blocks⟩ with
    | none => rw [hrp] at h; cases h
    | some hir1 =>
      rw [hrp] at h
      simp only at h
      split at h
      · cases h
      · split at h
        · cases h
        · split at h
          · cases h
          · split at h
            · cases h
            · cases hmi : markInstructionIds
                  (removeUnreachableDoWhileStatements
                    (removeUnreachableFallthroughs (removeUnreachableForUpdates hir1))) with
              | none => rw [hmi] at h; cases h
              | some hir5 =>
                rw [hmi] at h
                simp only at h
                split at h
                · cases h
                · cases hmp : markPredecessors hir5 with
                  | none => rw [hmp] at h; cases h
                  | some hir6 =>
                    rw [hmp] at h
                    simp only at h
                    split at h
                    · cases h
                    · cases h
                      exact ⟨hir1, hir5, rfl, hmi, hmp⟩

/- ===== Claim C3: instruction/terminal ids strictly increase ===== -/

/-- C3: after finalization, walking blocks in map order and within each block
its instruction ids followed by the terminal id yields a strictly increasing
sequence over the whole IR, with no id reused. -/
theorem instruction_ids_strictly_increasing (entry : BlockId)
    (blocks : List (BlockId × BasicBlock)) (hir' : HIR)
    (h : finalize entry blocks = some hir') :
    (flatIds hir'.blocks).Pairwise (· < ·) ∧ (flatIds hir'.blocks).Nodup := by
  obtain ⟨hir1, hir5, _, hmi, hmp⟩ := finalize_split entry blocks hir' h
  unfold markInstructionIds at hmi
  set hir4 := removeUnreachableDoWhileStatements
    (removeUnreachableFallthroughs (removeUnreachableForUpdates hir1)) with hh4
  obtain ⟨blocks5, heq5, hflat5, _⟩ :=
    markBlocks_sound hir4.blocks 0 0 [] (by intro p hp; simp at hp)
  rw [heq5] at hmi
  simp only at hmi
  cases hmi
  have hframe := markPredecessors_frame _ _ hmp
  have hflat : flatIds hir'.blocks = flatIds blocks5 := by
    rw [← flatIds_stripPreds hir'.blocks, hframe.1, flatIds_stripPreds]
  rw [hflat, hflat5]
  refine ⟨List.pairwise_lt_range' _ _, ?_⟩
  exact (List.pairwise_lt_range' _ _).imp (fun hab => Nat.ne_of_lt hab)

/-- A single returning block, on which the whole pipeline succeeds. -/
def retExampleHIRBlocks : List (BlockId × BasicBlock) :=
  [(0, ⟨0, .Block, [⟨3, 0, 0⟩, ⟨4, 0, 1⟩], ⟨9, .returnT⟩, []⟩)]

theorem instruction_ids_strictly_increasing_witness :
    ∃ hir', finalize 0 retExampleHIRBlocks = some hir' ∧
      (flatIds hir'.blocks).Pairwise (· < ·) ∧ (flatIds hir'.blocks).Nodup := by
  refine ⟨⟨0, [(0, ⟨0, .Block, [⟨0, 0, 0⟩, ⟨1, 0, 1⟩], ⟨2, .returnT⟩, []⟩)]⟩, ?_, ?_⟩
  · rfl
  · exact instruction_ids_strictly_increasing 0 retExampleHIRBlocks _ rfl

/- ===== Reachability along the reordering walk's child edges ===== -/

/-- The walk children of a block id (empty when the block is absent). -/
def childrenOf (hir : HIR) (id : BlockId) : List BlockId :=
  match lookupBlock hir id with
  | some b => walkChildren b.terminal.value
  | none => []

/-- Reachability along the reordering walk's terminal-specific child edges. -/
inductive ReachesWalk (hir : HIR) : BlockId → BlockId → Prop
  | refl (b : BlockId) : ReachesWalk hir b b
  | step {u v w : BlockId} : v ∈ childrenOf hir u → ReachesWalk hir v w → ReachesWalk hir u w

theorem ReachesWalk.of_child {hir : HIR} {u v : BlockId} (h : v ∈ childrenOf hir u) :
    ReachesWalk hir u v :=
  .step h (.refl v)

theorem ReachesWalk.snoc_child {hir : HIR} {u v w : BlockId} (h : ReachesWalk hir u v)
    (h2 : w ∈ childrenOf hir v) : ReachesWalk hir u w := by
  induction h with
  | refl b => exact .of_child h2
  | step hc _ ih => exact .step hc (ih h2)

theorem ReachesWalk.trans {hir : HIR} {u v w : BlockId} (h : ReachesWalk hir u v)
    (h2 : ReachesWalk hir v w) : ReachesWalk hir u w := by
  induction h with
  | refl b => exact h2
  | step hc _ ih => exact .step hc (ih h2)

/- ===== Strict order of appearance in a list ===== -/

/-- The element x appears strictly before the element y in the list. -/
def Before {α : Type} (l : List α) (x y : α) : Prop :=
  ∃ l₁ l₂, l = l₁ ++ x :: l₂ ∧ y ∈ l₂

theorem Before.append {α : Type} {l d : List α} {x y : α} (h : Before l x y) :
    Before (l ++ d) x y := by
  obtain ⟨l₁, l₂, hl, hy⟩ := h
  exact ⟨l₁, l₂ ++ d, by rw [hl]; simp, List.mem_append_left _ hy⟩

theorem before_append_last {α : Type} {l : List α} {x b : α} (h : x ∈ l) :
    Before (l ++ [b]) x b := by
  obtain ⟨l₁, l₂, hl⟩ := List.append_of_mem h
  exact ⟨l₁, l₂ ++ [b], by rw [hl]; simp, by simp⟩

theorem Before.reverse {α : Type} {l : List α} {x y : α} (h : Before l x y) :
    Before l.reverse y x := by
  obtain ⟨l₁, l₂, hl, hy⟩ := h
  obtain ⟨a, c, ha⟩ := List.append_of_mem (List.mem_reverse.mpr hy)
  refine ⟨a, c ++ x :: l₁.reverse, ?_, by simp⟩
  rw [hl]
  simp only [List.reverse_append, List.reverse_cons]
  rw [ha]
  simp

/- ===== The depth-first walk invariant ===== -/

/-- Gray nodes: visited but not yet appended to the postorder (on the walk's
implicit call stack). -/
def grayIn (s : POState) (x : BlockId) : Prop :=
  x ∈ s.visited ∧ x ∉ s.postorder

/-- Invariant of the walk state: the postorder list is duplicate-free, all its
members are visited blocks present in the map, and each finished block's walk
children are visited and either appear before it in the postorder or reach it. -/
def POInv (hir : HIR) (s : POState) : Prop :=
  s.postorder.Nodup ∧
  (∀ x ∈ s.postorder, x ∈ s.visited) ∧
  (∀ u ∈ s.postorder, (lookupBlock hir u).isSome) ∧
  (∀ u ∈ s.postorder, ∀ v ∈ childrenOf hir u,
    v ∈ s.visited ∧ (Before s.postorder v u ∨ ReachesWalk hir v u))

/-- What one successful walk step guarantees, relating its start and end states. -/
def POConcl (hir : HIR) (root : BlockId) (s s' : POState) : Prop :=
  (∀ x ∈ s.visited, x ∈ s'.visited) ∧
  s.postorder <+: s'.postorder ∧
  (∀ x ∈ s'.visited, x ∈ s.visited ∨ x ∈ s'.postorder) ∧
  (∀ x ∈ s'.postorder, x ∉ s.postorder → x ∉ s.visited) ∧
  (∀ x ∈ s'.visited, ReachesWalk hir root x) ∧
  POInv hir s'

theorem POConcl_gray_eq {hir : HIR} {root : BlockId} {s s' : POState}
    (hc : POConcl hir root s s') (_ : POInv hir s) :
    ∀ g, grayIn s' g ↔ grayIn s g := by
  obtain ⟨h1, h2, h3, h4, _, _⟩ := hc
  intro g
  constructor
  · rintro ⟨hv, hp⟩
    rcases h3 g hv with h | h
    · exact ⟨h, fun hmem => hp (h2.subset hmem)⟩
    · exact absurd h hp
  · rintro ⟨hv, hp⟩
    refine ⟨h1 g hv, fun hmem => ?_⟩
    exact h4 g hmem hp hv

theorem POConcl_refl {hir : HIR} {root : BlockId} {s : POState} (hs : POInv hir s)
    (hr : ∀ x ∈ s.visited, ReachesWalk hir root x) : POConcl hir root s s :=
  ⟨fun _ h => h, List.prefix_refl _, fun _ h => Or.inl h, fun _ hx hq => absurd hx hq, hr, hs⟩

theorem POConcl_trans {hir : HIR} {root : BlockId} {s s1 s' : POState}
    (ha : POConcl hir root s s1) (hb : POConcl hir root s1 s') : POConcl hir root s s' := by
  obtain ⟨a1, a2, a3, a4, a5, a6⟩ := ha
  obtain ⟨b1, b2, b3, b4, b5, b6⟩ := hb
  refine ⟨fun x h => b1 x (a1 x h), a2.trans b2, ?_, ?_, b5, b6⟩
  · intro x hx
    rcases b3 x hx with h | h
    · rcases a3 x h with h2 | h2
      · exact Or.inl h2
      · exact Or.inr (b2.subset h2)
    · exact Or.inr h
  · intro x hx hnot
    by_cases hmid : x ∈ s1.postorder
    · exact a4 x hmid hnot
    · intro hv
      exact b4 x hx hmid (a1 x hv)

theorem visitAll_spec (hir : HIR) (root : BlockId)
    (f : BlockId → POState → Option POState)
    (hf : ∀ b s s', f b s = some s' →
      POInv hir s →
      (∀ g, grayIn s g → ReachesWalk hir g b) →
      ReachesWalk hir root b →
      (∀ x ∈ s.visited, ReachesWalk hir root x) →
      b ∈ s'.visited ∧ POConcl hir root s s') :
    ∀ (l : List BlockId) (s s' : POState),
    visitAll f l s = some s' →
    POInv hir s →
    (∀ g, grayIn s g → ∀ c ∈ l, ReachesWalk hir g c) →
    (∀ c ∈ l, ReachesWalk hir root c) →
    (∀ x ∈ s.visited, ReachesWalk hir root x) →
    (∀ c ∈ l, c ∈ s'.visited) ∧ POConcl hir root s s' := by
  intro l
  induction l with
  | nil =>
    intro s s' h hinv hgray hroot hvis
    rw [visitAll] at h
    cases h
    exact ⟨by simp, POConcl_refl hinv hvis⟩
  | cons b rest ih =>
    intro s s' h hinv hgray hroot hvis
    rw [visitAll] at h
    cases hfb : f b s with
    | none => rw [hfb] at h; cases h
    | some s1 =>
      rw [hfb] at h
      obtain ⟨hbmem, hc1⟩ := hf b s s1 hfb hinv
        (fun g hg => hgray g hg b (List.mem_cons_self _ _))
        (hroot b (List.mem_cons_self _ _)) hvis
      have hgray1 : ∀ g, grayIn s1 g → ∀ c ∈ rest, ReachesWalk hir g c := by
        intro g hg c hc
        exact hgray g ((POConcl_gray_eq hc1 hinv g).mp hg) c (List.mem_cons_of_mem _ hc)
      obtain ⟨hrestmem, hc2⟩ := ih s1 s' h hc1.2.2.2.2.2 hgray1
        (fun c hc => hroot c (List.mem_cons_of_mem _ hc)) hc1.2.2.2.2.1
      refine ⟨?_, POConcl_trans hc1 hc2⟩
      intro c hc
      rcases List.mem_cons.mp hc with hceq | hcr
      · subst hceq
        exact hc2.1 c hbmem
      · exact hrestmem c hcr

theorem visitPO_spec (hir : HIR) (root : BlockId) :
    ∀ (fuel : Nat) (b : BlockId) (s s' : POState),
    visitPO hir fuel b s = some s' →
    POInv hir s →
    (∀ g, grayIn s g → ReachesWalk hir g b) →
    ReachesWalk hir root b →
    (∀ x ∈ s.visited, ReachesWalk hir root x) →
    b ∈ s'.visited ∧ POConcl hir root s s' := by
  intro fuel
  induction fuel with
  | zero => intro b s s' h; cases h
  | succ fuel ih =>
    intro b s s' h hinv hgray hrootb hvis
    rw [visitPO] at h
    by_cases hvb : s.visited.contains b
    · rw [if_pos hvb] at h
      cases h
      exact ⟨by simpa [List.contains] using hvb, POConcl_refl hinv hvis⟩
    · rw [if_neg hvb] at h
      have hbnotvis : b ∉ s.visited := by
        intro hmem
        exact hvb (by simpa [List.contains] using hmem)
      cases hlk : lookupBlock hir b with
      | none => rw [hlk] at h; cases h
      | some block =>
        rw [hlk] at h
        simp only at h
        have hchildren : childrenOf hir b = walkChildren block.terminal.value := by
          unfold childrenOf
          rw [hlk]
        set s1 : POState := { s with visited := b :: s.visited } with hs1
        have hinv1 : POInv hir s1 := by
          obtain ⟨i1, i2, i3, i4⟩ := hinv
          refine ⟨i1, fun x hx => List.mem_cons_of_mem _ (i2 x hx), i3, ?_⟩
          intro u hu v hv
          obtain ⟨hvv, hbr⟩ := i4 u hu v hv
          exact ⟨List.mem_cons_of_mem _ hvv, hbr⟩
        have hbnotpost : b ∉ s.postorder := fun hmem => hbnotvis (hinv.2.1 b hmem)
        cases hva : visitAll (visitPO hir fuel) (walkChildren block.terminal.value) s1 with
        | none => rw [hva] at h; cases h
        | some s2 =>
          rw [hva] at h
          cases h
          obtain ⟨hchildvis, hc⟩ := visitAll_spec hir root (visitPO hir fuel)
            ih _ s1 s2 hva hinv1
            (by
              intro g hg c hcmem
              rcases List.mem_cons.mp hg.1 with hgb | hgs
              · subst hgb
                exact ReachesWalk.of_child (hchildren ▸ hcmem)
              · exact (hgray g ⟨hgs, hg.2⟩).snoc_child (hchildren ▸ hcmem))
            (fun c hcmem => hrootb.snoc_child (hchildren ▸ hcmem))
            (by
              intro x hx
              rcases List.mem_cons.mp hx with hxb | hxs
              · subst hxb; exact hrootb
              · exact hvis x hxs)
          obtain ⟨c1, c2, c3, c4, c5, cinv⟩ := hc
          obtain ⟨n2, p2, l2, g2⟩ := cinv
          have hbnotpost2 : b ∉ s2.postorder := by
            intro hmem
            by_cases hmid : b ∈ s1.postorder
            · exact hbnotpost hmid
            · exact c4 b hmem hmid (List.mem_cons_self _ _)
          have hgray_eq := POConcl_gray_eq ⟨c1, c2, c3, c4, c5, n2, p2, l2, g2⟩ hinv1
          refine ⟨c1 b (List.mem_cons_self _ _), ?_, ?_, ?_, ?_, ?_, ?_, ?_, ?_, ?_⟩
          · intro x hx
            exact c1 x (List.mem_cons_of_mem _ hx)
          · show s.postorder <+: s2.postorder ++ [b]
            exact (c2.trans (List.prefix_append _ _) : _)
          · intro x hx
            rcases c3 x hx with hx1 | hx2
            · rcases List.mem_cons.mp hx1 with hxb | hxs
              · subst hxb
                exact Or.inr (by simp)
              · exact Or.inl hxs
            · exact Or.inr (List.mem_append_left _ hx2)
          · intro x hx hnot
            rcases List.mem_append.mp hx with hx2 | hxb
            · intro hv
              exact c4 x hx2 hnot (List.mem_cons_of_mem _ hv)
            · simp only [List.mem_singleton] at hxb
              subst hxb
              exact hbnotvis
          · exact c5
          · show (s2.postorder ++ [b]).Nodup
            rw [List.nodup_append]
            exact ⟨n2, List.nodup_singleton _,
              by
                intro x hx hxb
                simp only [List.mem_singleton] at hxb
                subst hxb
                exact hbnotpost2 hx⟩
          · intro x hx
            rcases List.mem_append.mp hx with hx2 | hxb
            · exact p2 x hx2
            · simp only [List.mem_singleton] at hxb
              rw [hxb]
              exact c1 b (List.mem_cons_self _ _)
          · intro u hu
            rcases List.mem_append.mp hu with hu2 | hub
            · exact l2 u hu2
            · simp only [List.mem_singleton] at hub
              subst hub
              rw [hlk]
              rfl
          · intro u hu v hv
            rcases List.mem_append.mp hu with hu2 | hub
            · obtain ⟨hvv, hbr⟩ := g2 u hu2 v hv
              refine ⟨hvv, ?_⟩
              rcases hbr with hbef | hrch
              · exact Or.inl hbef.append
              · exact Or.inr hrch
            · simp only [List.mem_singleton] at hub
              subst hub
              have hvmem : v ∈ s2.visited := hchildvis v (hchildren ▸ hv)
              refine ⟨hvmem, ?_⟩
              by_cases hvpost : v ∈ s2.postorder
              · exact Or.inl (before_append_last hvpost)
              · have hvgray : grayIn s1 v := (hgray_eq v).mp ⟨hvmem, hvpost⟩
                rcases List.mem_cons.mp hvgray.1 with hvb2 | hvs
                · subst hvb2
                  exact Or.inr (ReachesWalk.refl _)
                · exact Or.inr (hgray v ⟨hvs, hvgray.2⟩)

/- ===== Claim C1: the reordering stage ===== -/

theorem rebuildBlocks_spec (hir : HIR) :
    ∀ (l : List BlockId) (bs : List (BlockId × BasicBlock)),
    rebuildBlocks hir l = some bs →
    keysOf bs = l ∧ ∀ k b, (k, b) ∈ bs → lookupBlock hir k = some b := by
  intro l
  induction l with
  | nil =>
    intro bs h
    rw [rebuildBlocks] at h
    cases h
    exact ⟨rfl, by simp⟩
  | cons id rest ih =>
    intro bs h
    rw [rebuildBlocks] at h
    cases hlk : lookupBlock hir id with
    | none => rw [hlk] at h; cases h
    | some b0 =>
      rw [hlk] at h
      cases hrec : rebuildBlocks hir rest with
      | none => rw [hrec] at h; cases h
      | some bs0 =>
        rw [hrec] at h
        cases h
        obtain ⟨hkeys, hlkp⟩ := ih bs0 hrec
        refine ⟨?_, ?_⟩
        · show id :: keysOf bs0 = id :: rest
          rw [hkeys]
        · intro k b hmem
          rcases List.mem_cons.mp hmem with heq | hm
          · cases heq
            exact hlk
          · exact hlkp k b hm

/-- C1: a successful run of the reordering stage computes the depth-first
postorder of the walk from the entry block (whose terminal-specific child
edges are those of `walkChildren`: If visits alternate then consequent, For
only init, DoWhile only body, Goto its target, Return nothing, and visited
blocks are never re-descended), rebuilds the block map keyed in the reverse of
that postorder list, and in the resulting order every block appears after each
of its non-back-edge predecessors — concretely, for every walk edge from u to
v whose target v does not reach u (i.e. the edge closes no cycle), u appears
strictly before v in the rebuilt map. -/
theorem reverse_postorder_reordering (hir hir' : HIR)
    (h : reversePostorderBlocks hir = some hir') :
    (∃ po, postorderOf hir = some po ∧ keysOf hir'.blocks = po.reverse) ∧
    (∀ u blk, (u, blk) ∈ hir'.blocks → lookupBlock hir u = some blk ∧
      ∀ v ∈ walkChildren blk.terminal.value,
        ¬ ReachesWalk hir v u → Before (keysOf hir'.blocks) u v) := by
  unfold reversePostorderBlocks at h
  cases hpo : postorderOf hir with
  | none => rw [hpo] at h; cases h
  | some po =>
    rw [hpo] at h
    simp only at h
    cases hrb : rebuildBlocks hir po.reverse with
    | none => rw [hrb] at h; cases h
    | some blocks =>
      rw [hrb] at h
      cases h
      obtain ⟨hkeys, hlkp⟩ := rebuildBlocks_spec hir po.reverse blocks hrb
      have hpo2 := hpo
      unfold postorderOf at hpo2
      cases hrun : visitPO hir (poFuel hir) hir.entry ⟨[], []⟩ with
      | none => rw [hrun] at hpo2; cases hpo2
      | some sf =>
        rw [hrun] at hpo2
        simp only [Option.map_some'] at hpo2
        cases hpo2
        obtain ⟨-, -, -, -, -, -, -, _, _, hgood⟩ := visitPO_spec hir hir.entry
          (poFuel hir) hir.entry ⟨[], []⟩ sf hrun
          ⟨List.nodup_nil, by simp, by simp, by simp⟩
          (fun g hg => absurd hg.1 (by simp))
          (ReachesWalk.refl _)
          (by simp)
        refine ⟨⟨sf.postorder, rfl, hkeys⟩, ?_⟩
        intro u blk hmem
        have hlku := hlkp u blk hmem
        refine ⟨hlku, ?_⟩
        intro v hv hnreach
        have humem : u ∈ sf.postorder := by
          have hk := mem_keysOf hmem
          rw [hkeys] at hk
          exact List.mem_reverse.mp hk
        have hchild : v ∈ childrenOf hir u := by
          unfold childrenOf
          rw [hlku]
          exact hv
        obtain ⟨-, hbr⟩ := hgood u humem v hchild
        rcases hbr with hbef | hrch
        · rw [hkeys]
          exact hbef.reverse
        · exact absurd hrch hnreach

/-- A diamond with a join: block 0 branches to 1/2, both jump to 3, which
returns. -/
def c1ExampleHIR : HIR :=
  ⟨0,
    [(3, ⟨3, .Block, [], ⟨4, .returnT⟩, []⟩),
     (1, ⟨1, .Block, [], ⟨5, .gotoT 3 .Break⟩, []⟩),
     (2, ⟨2, .Block, [], ⟨6, .gotoT 3 .Break⟩, []⟩),
     (0, ⟨0, .Block, [], ⟨7, .ifT 1 2 none⟩, []⟩)]⟩

theorem reverse_postorder_reordering_witness :
    ∃ hir', reversePostorderBlocks c1ExampleHIR = some hir' ∧
      (∃ po, postorderOf c1ExampleHIR = some po ∧ keysOf hir'.blocks = po.reverse) ∧
      (∀ u blk, (u, blk) ∈ hir'.blocks → lookupBlock c1ExampleHIR u = some blk ∧
        ∀ v ∈ walkChildren blk.terminal.value,
          ¬ ReachesWalk c1ExampleHIR v u → Before (keysOf hir'.blocks) u v) :=
  ⟨⟨0,
      [(0, ⟨0, .Block, [], ⟨7, .ifT 1 2 none⟩, []⟩),
       (1, ⟨1, .Block, [], ⟨5, .gotoT 3 .Break⟩, []⟩),
       (2, ⟨2, .Block, [], ⟨6, .gotoT 3 .Break⟩, []⟩),
       (3, ⟨3, .Block, [], ⟨4, .returnT⟩, []⟩)]⟩,
    rfl, reverse_postorder_reordering c1ExampleHIR _ rfl⟩

/- ===== Claim C2: predecessor sets are the transpose of reachability ===== -/

/-- The successor list of a block id (empty when the block is absent). -/
def succsOf (hir : HIR) (b : BlockId) : List BlockId :=
  match lookupBlock hir b with
  | some blk => successors blk.terminal.value
  | none => []

/-- The stored predecessor set of a block id (empty when the block is absent). -/
def predsOf (hir : HIR) (b : BlockId) : List BlockId :=
  match lookupBlock hir b with
  | some blk => blk.predecessors
  | none => []

/-- Reachability along the successor edges of terminals. -/
inductive ReachesSucc (hir : HIR) : BlockId → BlockId → Prop
  | refl (b : BlockId) : ReachesSucc hir b b
  | step {u v w : BlockId} : v ∈ succsOf hir u → ReachesSucc hir v w → ReachesSucc hir u w

theorem ReachesSucc.of_succ {hir : HIR} {u v : BlockId} (h : v ∈ succsOf hir u) :
    ReachesSucc hir u v :=
  .step h (.refl v)

theorem ReachesSucc.snoc_succ {hir : HIR} {u v w : BlockId} (h : ReachesSucc hir u v)
    (h2 : w ∈ succsOf hir v) : ReachesSucc hir u w := by
  induction h with
  | refl b => exact .of_succ h2
  | step hc _ ih => exact .step hc (ih h2)

theorem mapLookup_map {β γ : Type} (f : β → γ) (m : List (BlockId × β)) (k : BlockId) :
    mapLookup (m.map (fun kv => (kv.1, f kv.2))) k = (mapLookup m k).map f := by
  induction m with
  | nil => rfl
  | cons kv rest ih =>
    obtain ⟨k0, v0⟩ := kv
    by_cases h : k = k0 <;> simp [mapLookup, h, ih]

theorem updateBlock_cons (k0 : BlockId) (v0 : BasicBlock)
    (rest : List (BlockId × BasicBlock)) (id : BlockId) (f : BasicBlock → BasicBlock) :
    updateBlock ((k0, v0) :: rest) id f =
      (if k0 = id then (k0, f v0) else (k0, v0)) :: updateBlock rest id f := by
  unfold updateBlock
  rw [List.map_cons]

theorem mapLookup_updateBlock (blocks : List (BlockId × BasicBlock)) (id : BlockId)
    (f : BasicBlock → BasicBlock) (k : BlockId) :
    mapLookup (updateBlock blocks id f) k =
      if k = id then (mapLookup blocks k).map f else mapLookup blocks k := by
  induction blocks with
  | nil => by_cases h : k = id <;> simp [updateBlock, mapLookup, h]
  | cons kv rest ih =>
    obtain ⟨k0, v0⟩ := kv
    rw [updateBlock_cons]
    by_cases h0 : k0 = id
    · rw [if_pos h0]
      subst h0
      by_cases h : k = k0
      · subst h
        simp [mapLookup]
      · simp [mapLookup, h, ih]
    · rw [if_neg h0]
      by_cases h : k = k0
      · subst h
        have h2 : ¬ k = id := fun he => h0 he
        simp [mapLookup, h2]
      · simp [mapLookup, h, ih]

/-- The predecessor-erased image of a block. -/
def stripBlock (b : BasicBlock) : BasicBlock :=
  { b with predecessors := [] }

theorem lookup_of_stripPreds_eq {a b : List (BlockId × BasicBlock)}
    (h : stripPreds a = stripPreds b) (k : BlockId) :
    (mapLookup a k).map stripBlock = (mapLookup b k).map stripBlock := by
  have ha := mapLookup_map stripBlock a k
  have hb := mapLookup_map stripBlock b k
  unfold stripPreds at h
  unfold stripBlock at ha hb ⊢
  rw [← ha, ← hb, h]

theorem succsOf_of_stripPreds_eq {a b : HIR} (h : stripPreds a.blocks = stripPreds b.blocks)
    (k : BlockId) : succsOf a k = succsOf b k := by
  have hl := lookup_of_stripPreds_eq h k
  unfold succsOf lookupBlock
  cases hx : mapLookup a.blocks k with
  | none =>
    rw [hx] at hl
    cases hy : mapLookup b.blocks k with
    | none => rfl
    | some blkb => rw [hy] at hl; cases hl
  | some blka =>
    rw [hx] at hl
    cases hy : mapLookup b.blocks k with
    | none => rw [hy] at hl; cases hl
    | some blkb =>
      rw [hy] at hl
      simp only [Option.map_some'] at hl
      have hterm : blka.terminal = blkb.terminal := by
        have := congrArg BasicBlock.terminal (Option.some.inj hl)
        simpa [stripBlock] using this
      show successors blka.terminal.value = successors blkb.terminal.value
      rw [hterm]

theorem mem_insertPred {p x : BlockId} {l : List BlockId} :
    x ∈ insertPred p l ↔ x = p ∨ x ∈ l := by
  unfold insertPred
  by_cases h : l.contains p
  · rw [if_pos h]
    constructor
    · exact fun hx => Or.inr hx
    · rintro (hx | hx)
      · subst hx
        simpa [List.contains] using h
      · exact hx
  · rw [if_neg h]
    simp [List.mem_cons]

/-- Hypotheses maintained by the predecessor walk: the skeleton matches the
full HIR, every recorded predecessor edge is a real successor edge out of a
visited block, and every visited block is reachable from the root. -/
def PSHyp (fullHir : HIR) (root : BlockId) (s : PredState) : Prop :=
  stripPreds s.hir.blocks = stripPreds fullHir.blocks ∧
  (∀ x p, p ∈ predsOf s.hir x → p ∈ s.visited ∧ x ∈ succsOf fullHir p) ∧
  (∀ x ∈ s.visited, ReachesSucc fullHir root x)

/-- What a successful predecessor-walk step guarantees. -/
def PSConcl (fullHir : HIR) (root : BlockId) (s s' : PredState) : Prop :=
  (∀ x ∈ s.visited, x ∈ s'.visited) ∧
  (∀ x p, p ∈ predsOf s.hir x → p ∈ predsOf s'.hir x) ∧
  (∀ u ∈ s'.visited, u ∈ s.visited ∨
    (∀ v ∈ succsOf fullHir u, v ∈ s'.visited ∧ u ∈ predsOf s'.hir v)) ∧
  PSHyp fullHir root s'

theorem PSConcl_refl {fullHir : HIR} {root : BlockId} {s : PredState}
    (hs : PSHyp fullHir root s) : PSConcl fullHir root s s :=
  ⟨fun _ h => h, fun _ _ h => h, fun _ hu => Or.inl hu, hs⟩

theorem PSConcl_trans {fullHir : HIR} {root : BlockId} {s s1 s' : PredState}
    (ha : PSConcl fullHir root s s1) (hb : PSConcl fullHir root s1 s') :
    PSConcl fullHir root s s' := by
  obtain ⟨a1, a2, a3, a4⟩ := ha
  obtain ⟨b1, b2, b3, b4⟩ := hb
  refine ⟨fun x h => b1 x (a1 x h), fun x p h => b2 x p (a2 x p h), ?_, b4⟩
  intro u hu
  rcases b3 u hu with h | hdone
  · rcases a3 u h with h2 | hdone2
    · exact Or.inl h2
    · refine Or.inr ?_
      intro v hv
      obtain ⟨hvv, hvp⟩ := hdone2 v hv
      exact ⟨b1 v hvv, b2 v u hvp⟩
  · exact Or.inr hdone

theorem predAllP_spec (fullHir : HIR) (root : BlockId) (prevb : BlockId)
    (f : BlockId → PredState → Option PredState)
    (hf : ∀ c s s', f c s = some s' →
      PSHyp fullHir root s →
      (∀ p, (some prevb : Option BlockId) = some p →
        p ∈ s.visited ∧ c ∈ succsOf fullHir p) →
      ReachesSucc fullHir root c →
      c ∈ s'.visited ∧
      (∀ p, (some prevb : Option BlockId) = some p → p ∈ predsOf s'.hir c) ∧
      PSConcl fullHir root s s') :
    ∀ (l : List BlockId) (s s' : PredState),
    predAll f l s = some s' →
    PSHyp fullHir root s →
    prevb ∈ s.visited →
    (∀ c ∈ l, c ∈ succsOf fullHir prevb) →
    ReachesSucc fullHir root prevb →
    (∀ c ∈ l, c ∈ s'.visited ∧ prevb ∈ predsOf s'.hir c) ∧
    PSConcl fullHir root s s' := by
  intro l
  induction l with
  | nil =>
    intro s s' h hhyp hprevvis hsuccs hreach
    rw [predAll] at h
    cases h
    exact ⟨by simp, PSConcl_refl hhyp⟩
  | cons c rest ih =>
    intro s s' h hhyp hprevvis hsuccs hreach
    rw [predAll] at h
    cases hfc : f c s with
    | none => rw [hfc] at h; cases h
    | some s1 =>
      rw [hfc] at h
      obtain ⟨hcvis, hcpred, hc1⟩ := hf c s s1 hfc hhyp
        (by
          intro p2 hp2
          cases hp2
          exact ⟨hprevvis, hsuccs c (List.mem_cons_self _ _)⟩)
        (hreach.snoc_succ (hsuccs c (List.mem_cons_self _ _)))
      obtain ⟨hrest, hc2⟩ := ih s1 s' h hc1.2.2.2 (hc1.1 prevb hprevvis)
        (fun c2 hmem => hsuccs c2 (List.mem_cons_of_mem _ hmem)) hreach
      refine ⟨?_, PSConcl_trans hc1 hc2⟩
      intro c2 hmem
      rcases List.mem_cons.mp hmem with hceq | hcr
      · subst hceq
        exact ⟨hc2.1 c2 hcvis, hc2.2.1 c2 prevb (hcpred prevb rfl)⟩
      · exact hrest c2 hcr

theorem visitPred_spec (fullHir : HIR) (root : BlockId) :
    ∀ (fuel : Nat) (prev : Option BlockId) (b : BlockId) (s s' : PredState),
    visitPred fullHir fuel prev b s = some s' →
    PSHyp fullHir root s →
    (∀ p, prev = some p → p ∈ s.visited ∧ b ∈ succsOf fullHir p) →
    ReachesSucc fullHir root b →
    b ∈ s'.visited ∧
    (∀ p, prev = some p → p ∈ predsOf s'.hir b) ∧
    PSConcl fullHir root s s' := by
  intro fuel
  induction fuel with
  | zero => intro prev b s s' h; cases h
  | succ fuel ih =>
    intro prev b s s' h hhyp hprev hreach
    simp only [visitPred] at h
    cases hlk : lookupBlock s.hir b with
    | none => rw [hlk] at h; cases h
    | some block =>
      rw [hlk] at h
      simp only at h
      have hsuccb : succsOf s.hir b = successors block.terminal.value := by
        unfold succsOf
        rw [hlk]
      have hsuccb2 : succsOf fullHir b = successors block.terminal.value := by
        rw [← hsuccb]
        exact (succsOf_of_stripPreds_eq hhyp.1 b).symm
      have hstep : ∀ s1 : PredState,
          s1.visited = s.visited →
          PSHyp fullHir root s1 →
          (∀ x p, p ∈ predsOf s.hir x → p ∈ predsOf s1.hir x) →
          (∀ p, prev = some p → p ∈ predsOf s1.hir b) →
          (if s1.visited.contains b then some s1
            else predAll (fun succ => visitPred fullHir fuel (some b) succ)
              (successors block.terminal.value)
              { s1 with visited := b :: s1.visited }) = some s' →
          b ∈ s'.visited ∧
          (∀ p, prev = some p → p ∈ predsOf s'.hir b) ∧
          PSConcl fullHir root s s' := by
        intro s1 hvis1 hhyp1 hmono1 hprevins1 hrun
        by_cases hvb : s1.visited.contains b
        · rw [if_pos hvb] at hrun
          cases hrun
          have hbvis : b ∈ s.visited := by
            rw [← hvis1]
            simpa [List.contains] using hvb
          refine ⟨by rw [hvis1]; exact hbvis, hprevins1, ?_, hmono1, ?_, hhyp1⟩
          · intro x hx
            rw [hvis1]
            exact hx
          · intro u hu
            rw [hvis1] at hu
            exact Or.inl hu
        · rw [if_neg hvb] at hrun
          set s2 : PredState := { s1 with visited := b :: s1.visited } with hs2
          have hhyp2 : PSHyp fullHir root s2 := by
            obtain ⟨f1, f2, f3⟩ := hhyp1
            refine ⟨f1, ?_, ?_⟩
            · intro x p hp
              obtain ⟨hpv, hps⟩ := f2 x p hp
              exact ⟨List.mem_cons_of_mem _ hpv, hps⟩
            · intro x hx
              rcases List.mem_cons.mp hx with hxb | hxs
              · subst hxb
                exact hreach
              · exact f3 x hxs
          obtain ⟨hchild, hcc⟩ := predAllP_spec fullHir root b
            (fun succ => visitPred fullHir fuel (some b) succ)
            (fun c t t' hcall hth htp htr =>
              ih (some b) c t t' hcall hth htp htr)
            (successors block.terminal.value) s2 s' hrun hhyp2
            (List.mem_cons_self _ _)
            (by rw [hsuccb2]; exact fun c hc => hc)
            hreach
          obtain ⟨k1, k2, k3, k4⟩ := hcc
          have hbvis' : b ∈ s'.visited := k1 b (List.mem_cons_self _ _)
          refine ⟨hbvis', ?_, ?_, ?_, ?_, k4⟩
          · intro p hp
            exact k2 b p (hprevins1 p hp)
          · intro x hx
            rw [← hvis1] at hx
            exact k1 x (List.mem_cons_of_mem _ hx)
          · intro x p hp
            exact k2 x p (hmono1 x p hp)
          · intro u hu
            rcases k3 u hu with hu2 | hdone
            · rcases List.mem_cons.mp hu2 with hub | hus
              · subst hub
                refine Or.inr ?_
                intro v hv
                rw [hsuccb2] at hv
                exact hchild v hv
              · rw [hvis1] at hus
                exact Or.inl hus
            · exact Or.inr hdone
      cases prev with
      | none =>
        simp only at h
        refine hstep s rfl hhyp (fun _ _ h2 => h2) (fun p hp => by cases hp) h
      | some p =>
        simp only at h
        obtain ⟨hpvis, hpsucc⟩ := hprev p rfl
        have hpreds1 : ∀ x, predsOf
            { s.hir with
              blocks := updateBlock s.hir.blocks b
                (fun blk => { blk with predecessors := insertPred p blk.predecessors }) } x =
            if x = b then insertPred p (predsOf s.hir x) else predsOf s.hir x := by
          intro x
          unfold predsOf lookupBlock
          simp only
          rw [mapLookup_updateBlock]
          by_cases hx : x = b
          · subst hx
            rw [if_pos rfl, if_pos rfl]
            unfold lookupBlock at hlk
            rw [hlk]
            rfl
          · rw [if_neg hx, if_neg hx]
        refine hstep
          ⟨{ s.hir with
              blocks := updateBlock s.hir.blocks b
                (fun blk => { blk with predecessors := insertPred p blk.predecessors }) },
            s.visited⟩
          rfl ?_ ?_ ?_ h
        · obtain ⟨f1, f2, f3⟩ := hhyp
          refine ⟨(stripPreds_updateBlock_preds _ _ _).trans f1, ?_, f3⟩
          intro x q hq
          rw [hpreds1 x] at hq
          by_cases hx : x = b
          · rw [if_pos hx] at hq
            rcases mem_insertPred.mp hq with hqp | hqold
            · subst hqp
              subst hx
              exact ⟨hpvis, hpsucc⟩
            · exact f2 x q hqold
          · rw [if_neg hx] at hq
            exact f2 x q hq
        · intro x q hq
          rw [hpreds1 x]
          by_cases hx : x = b
          · rw [if_pos hx]
            exact mem_insertPred.mpr (Or.inr hq)
          · rw [if_neg hx]
            exact hq
        · intro q hq
          cases hq
          rw [hpreds1 b, if_pos rfl]
          exact mem_insertPred.mpr (Or.inl rfl)

theorem mapLookup_clear (blocks : List (BlockId × BasicBlock)) (x : BlockId) :
    mapLookup (blocks.map (fun kb => (kb.1, { kb.2 with predecessors := [] }))) x =
      (mapLookup blocks x).map (fun b => { b with predecessors := [] }) := by
  induction blocks with
  | nil => rfl
  | cons kv rest ih =>
    obtain ⟨k0, v0⟩ := kv
    by_cases h : x = k0 <;> simp [mapLookup, h, ih]

theorem predsOf_clear (h : HIR) (x : BlockId) : predsOf (clearPredecessors h) x = [] := by
  unfold predsOf clearPredecessors lookupBlock
  simp only
  rw [mapLookup_clear]
  cases mapLookup h.blocks x <;> rfl

theorem ReachesSucc_congr {a b : HIR} (hs : ∀ x, succsOf a x = succsOf b x)
    {u v : BlockId} (h : ReachesSucc a u v) : ReachesSucc b u v := by
  induction h with
  | refl w => exact .refl w
  | step hc _ ih => exact .step (hs _ ▸ hc) ih

/-- C2: after finalization, every block's stored predecessor set contains
exactly the blocks that are reachable from the entry block along successor
edges and whose terminal lists this block among its successors — the transpose
of the reachable successor relation, join points included. -/
theorem predecessors_transpose (entry : BlockId) (blocks : List (BlockId × BasicBlock))
    (hir' : HIR) (h : finalize entry blocks = some hir') :
    ∀ b blk, lookupBlock hir' b = some blk →
      ∀ p, p ∈ blk.predecessors ↔
        (ReachesSucc hir' hir'.entry p ∧ b ∈ succsOf hir' p) := by
  obtain ⟨hir1, hir5, _, _, hmp⟩ := finalize_split entry blocks hir' h
  simp only [markPredecessors] at hmp
  cases hrun : visitPred (clearPredecessors hir5) (poFuel hir5) none hir5.entry
      ⟨clearPredecessors hir5, []⟩ with
  | none => rw [hrun] at hmp; cases hmp
  | some sf =>
    rw [hrun] at hmp
    simp only at hmp
    cases hmp
    set cleared := clearPredecessors hir5 with hcleared
    obtain ⟨hentryvis, -, k1, k2, k3, kstrip, ksound, kreach⟩ :=
      visitPred_spec cleared hir5.entry (poFuel hir5) none hir5.entry
        ⟨cleared, []⟩ sf hrun
        (by
          refine ⟨rfl, ?_, ?_⟩
          · intro x p hp
            rw [predsOf_clear hir5 x] at hp
            cases hp
          · intro x hx
            cases hx)
        (fun p hp => by cases hp)
        (.refl _)
    have hsuccs_eq : ∀ x, succsOf sf.hir x = succsOf cleared x :=
      fun x => succsOf_of_stripPreds_eq kstrip x
    have hentry_eq : sf.hir.entry = hir5.entry := by
      have := visitPred_frame cleared (poFuel hir5) none hir5.entry _ _ hrun
      exact this.2
    have hclosed : ∀ u ∈ sf.visited, ∀ v ∈ succsOf cleared u, v ∈ sf.visited := by
      intro u hu v hv
      rcases k3 u hu with hu0 | hdone
      · cases hu0
      · exact (hdone v hv).1
    have hreach_vis : ∀ u w, ReachesSucc cleared u w → u ∈ sf.visited → w ∈ sf.visited := by
      intro u w hr
      induction hr with
      | refl x => exact fun h => h
      | step hc hr2 ih =>
        intro hu
        exact ih (hclosed _ hu _ hc)
    intro b blk hlk p
    have hpreds : predsOf sf.hir b = blk.predecessors := by
      unfold predsOf
      rw [hlk]
    constructor
    · intro hp
      have hp2 : p ∈ predsOf sf.hir b := by rw [hpreds]; exact hp
      obtain ⟨hpvis, hpsucc⟩ := ksound b p hp2
      refine ⟨?_, ?_⟩
      · rw [hentry_eq]
        exact ReachesSucc_congr (fun x => (hsuccs_eq x).symm) (kreach p hpvis)
      · rw [hsuccs_eq]
        exact hpsucc
    · rintro ⟨hrch, hsucc⟩
      have hrch2 : ReachesSucc cleared hir5.entry p := by
        rw [hentry_eq] at hrch
        exact ReachesSucc_congr hsuccs_eq hrch
      have hpvis : p ∈ sf.visited := hreach_vis _ _ hrch2 hentryvis
      rcases k3 p hpvis with h0 | hdone
      · cases h0
      · have := (hdone b (by rw [← hsuccs_eq]; exact hsucc)).2
        rw [hpreds] at this
        exact this

theorem predecessors_transpose_witness :
    ∃ w, finalize 0 c1ExampleHIR.blocks = some w ∧
      ∃ blk3, lookupBlock w 3 = some blk3 ∧
        ∀ p, p ∈ blk3.predecessors ↔
          (ReachesSucc w w.entry p ∧ 3 ∈ succsOf w p) :=
  ⟨⟨0,
      [(0, ⟨0, .Block, [], ⟨0, .ifT 1 2 none⟩, []⟩),
       (1, ⟨1, .Block, [], ⟨1, .gotoT 3 .Break⟩, [0]⟩),
       (2, ⟨2, .Block, [], ⟨2, .gotoT 3 .Break⟩, [0]⟩),
       (3, ⟨3, .Block, [], ⟨3, .returnT⟩, [2, 1]⟩)]⟩,
    rfl,
    ⟨⟨3, .Block, [], ⟨3, .returnT⟩, [2, 1]⟩, rfl,
      fun p => predecessors_transpose 0 c1ExampleHIR.blocks _ rfl 3 _ rfl p⟩⟩

/- ===== Claim C10: build keeps exactly the reachable completed blocks ===== -/

theorem mapLookup_isSome_iff_keys (m : List (BlockId × BasicBlock)) (k : BlockId) :
    (mapLookup m k).isSome ↔ k ∈ keysOf m :=
  mapLookup_isSome_iff m k

theorem keysOf_map_of_fst {g : BlockId × BasicBlock → BlockId × BasicBlock}
    (hg : ∀ kb, (g kb).1 = kb.1) (blocks : List (BlockId × BasicBlock)) :
    keysOf (blocks.map g) = keysOf blocks := by
  unfold keysOf
  rw [List.map_map]
  apply List.map_congr_left
  intro kb _
  exact hg kb

theorem keysOf_removeUnreachableForUpdates (hir : HIR) :
    keysOf (removeUnreachableForUpdates hir).blocks = keysOf hir.blocks := by
  apply keysOf_map_of_fst
  intro kb
  cases h : kb.2.terminal.value <;> simp [h]

theorem keysOf_removeUnreachableFallthroughs (hir : HIR) :
    keysOf (removeUnreachableFallthroughs hir).blocks = keysOf hir.blocks := by
  apply keysOf_map_of_fst
  intro kb
  rfl

theorem keysOf_removeUnreachableDoWhileStatements (hir : HIR) :
    keysOf (removeUnreachableDoWhileStatements hir).blocks = keysOf hir.blocks := by
  apply keysOf_map_of_fst
  intro kb
  cases h : kb.2.terminal.value <;> simp [h]
  split <;> rfl

theorem keysOf_markInstructionIds {hir hir' : HIR} (h : markInstructionIds hir = some hir') :
    keysOf hir'.blocks = keysOf hir.blocks := by
  unfold markInstructionIds at h
  obtain ⟨blocks', heq, _, hkeys⟩ :=
    markBlocks_sound hir.blocks 0 0 [] (by intro p hp; simp at hp)
  rw [heq] at h
  simp only at h
  cases h
  exact hkeys

theorem keysOf_markPredecessors {hir hir' : HIR} (h : markPredecessors hir = some hir') :
    keysOf hir'.blocks = keysOf hir.blocks := by
  have := (markPredecessors_frame hir hir' h).1
  rw [← keysOf_stripPreds hir'.blocks, this, keysOf_stripPreds]

/-- A successful reordering keeps exactly the blocks reachable from the entry
along the walk's child edges, and each kept block is present in the input map. -/
theorem reorder_keys_iff_reachable {hir hir1 : HIR}
    (h : reversePostorderBlocks hir = some hir1) :
    ∀ id, id ∈ keysOf hir1.blocks ↔
      ((mapLookup hir.blocks id).isSome ∧ ReachesWalk hir hir.entry id) := by
  unfold reversePostorderBlocks at h
  cases hpo : postorderOf hir with
  | none => rw [hpo] at h; cases h
  | some po =>
    rw [hpo] at h
    simp only at h
    cases hrb : rebuildBlocks hir po.reverse with
    | none => rw [hrb] at h; cases h
    | some blocks =>
      rw [hrb] at h
      cases h
      obtain ⟨hkeys, -⟩ := rebuildBlocks_spec hir po.reverse blocks hrb
      have hpo2 := hpo
      unfold postorderOf at hpo2
      cases hrun : visitPO hir (poFuel hir) hir.entry ⟨[], []⟩ with
      | none => rw [hrun] at hpo2; cases hpo2
      | some sf =>
        rw [hrun] at hpo2
        simp only [Option.map_some'] at hpo2
        cases hpo2
        obtain ⟨hentryvis, -, -, hvis4, -, hroot, hnodup, hpostvis, hlkSome, hgood⟩ :=
          visitPO_spec hir hir.entry (poFuel hir) hir.entry ⟨[], []⟩ sf hrun
            ⟨List.nodup_nil, by simp, by simp, by simp⟩
            (fun g hg => absurd hg.1 (by simp))
            (ReachesWalk.refl _)
            (by simp)
        have hvis_po : ∀ x, x ∈ sf.visited ↔ x ∈ sf.postorder := by
          intro x
          constructor
          · intro hx
            rcases hvis4 x hx with h0 | h1
            · simp at h0
            · exact h1
          · exact hpostvis x
        have hclosed : ∀ u ∈ sf.visited, ∀ v ∈ childrenOf hir u, v ∈ sf.visited := by
          intro u hu v hv
          exact (hgood u ((hvis_po u).mp hu) v hv).1
        have hreach_vis : ∀ u w, ReachesWalk hir u w → u ∈ sf.visited → w ∈ sf.visited := by
          intro u w hr
          induction hr with
          | refl x => exact fun hh => hh
          | step hc _ ih => exact fun hu => ih (hclosed _ hu _ hc)
        intro id
        show id ∈ keysOf blocks ↔ _
        rw [hkeys, List.mem_reverse]
        constructor
        · intro hid
          refine ⟨hlkSome id hid, hroot id (hpostvis id hid)⟩
        · rintro ⟨-, hr⟩
          exact (hvis_po id).mp (hreach_vis _ _ hr hentryvis)

/-- The builder invariant: completed keys are strictly below the wip block id,
which is strictly below the environment's next fresh block id. -/
def BInv (b : Builder) : Prop :=
  (∀ k ∈ keysOf b.completed, k < b.wip.id) ∧ b.wip.id < b.environment.nextBlockId

theorem BInv_new (env : Environment) : BInv (Builder.new env) := by
  refine ⟨?_, Nat.lt_succ_self _⟩
  intro k hk
  simp [Builder.new, keysOf] at hk

theorem keysOf_indexMapInsert_new {m : List (BlockId × BasicBlock)} {k : BlockId}
    (hnone : mapLookup m k = none) (v : BasicBlock) :
    keysOf (indexMapInsert m k v) = keysOf m ++ [k] := by
  unfold indexMapInsert
  rw [hnone]
  simp [keysOf]

theorem BInv_terminate {b : Builder} (hb : BInv b) (t : TerminalValue) (k : BlockKind) :
    BInv (b.terminate t k) := by
  obtain ⟨h1, h2⟩ := hb
  have hnone : mapLookup b.completed b.wip.id = none := by
    cases hs : mapLookup b.completed b.wip.id with
    | none => rfl
    | some v =>
      have : b.wip.id ∈ keysOf b.completed :=
        (mapLookup_isSome_iff_keys _ _).mp (by rw [hs]; rfl)
      exact absurd (h1 _ this) (Nat.lt_irrefl _)
  constructor
  · intro k2 hk2
    show k2 < b.environment.nextBlockId
    rw [show keysOf (b.terminate t k).completed =
      keysOf b.completed ++ [b.wip.id] from keysOf_indexMapInsert_new hnone _] at hk2
    rcases List.mem_append.mp hk2 with hold | hnew
    · exact Nat.lt_trans (h1 _ hold) h2
    · simp only [List.mem_singleton] at hnew
      rw [hnew]
      exact h2
  · exact Nat.lt_succ_self _

theorem BInv_push {b : Builder} (hb : BInv b) (lv v : Nat) : BInv (b.push lv v) := hb

theorem BInv_runOps {b : Builder} (hb : BInv b) :
    ∀ ops : List BuilderOp, BInv (runOps b ops) := by
  intro ops
  induction ops generalizing b with
  | nil => exact hb
  | cons op rest ih =>
    cases op with
    | push lv v => exact ih (BInv_push hb lv v)
    | terminate t k => exact ih (BInv_terminate hb t k)

/-- C10: a successful `build` returns exactly the blocks that were completed by
a `terminate` call (members of the completed map) and are reachable from the
entry block along the walk's terminal child edges; in particular the still-open
wip block is never part of the output, and completed blocks the reordering walk
does not reach are removed. -/
theorem build_reachable_completed (env : Environment) (ops : List BuilderOp)
    (b : Builder) (hir' : HIR)
    (hb : b = runOps (Builder.new env) ops)
    (h : b.build = some hir') :
    (∀ id, id ∈ keysOf hir'.blocks ↔
      ((mapLookup b.completed id).isSome ∧
        ReachesWalk ⟨b.entry, b.completed⟩ b.entry id)) ∧
    b.wip.id ∉ keysOf hir'.blocks := by
  unfold Builder.build at h
  obtain ⟨hir1, hir5, hrp, hmi, hmp⟩ := finalize_split b.entry b.completed hir' h
  have hkeys : keysOf hir'.blocks = keysOf hir1.blocks := by
    rw [keysOf_markPredecessors hmp, keysOf_markInstructionIds hmi,
      keysOf_removeUnreachableDoWhileStatements, keysOf_removeUnreachableFallthroughs,
      keysOf_removeUnreachableForUpdates]
  have hiff := reorder_keys_iff_reachable hrp
  have hmain : ∀ id, id ∈ keysOf hir'.blocks ↔
      ((mapLookup b.completed id).isSome ∧
        ReachesWalk ⟨b.entry, b.completed⟩ b.entry id) := by
    intro id
    rw [hkeys]
    exact hiff id
  refine ⟨hmain, ?_⟩
  intro hwip
  have hsome := ((hmain _).mp hwip).1
  have hmem : b.wip.id ∈ keysOf b.completed :=
    (mapLookup_isSome_iff_keys _ _).mp hsome
  have hinv : BInv b := by
    rw [hb]
    exact BInv_runOps (BInv_new env) ops
  exact Nat.lt_irrefl _ (hinv.1 _ hmem)

theorem build_reachable_completed_witness :
    ∃ b hir',
      b = runOps (Builder.new ⟨0⟩) [.terminate .returnT .Block] ∧
      b.build = some hir' ∧
      (∀ id, id ∈ keysOf hir'.blocks ↔
        ((mapLookup b.completed id).isSome ∧
          ReachesWalk ⟨b.entry, b.completed⟩ b.entry id)) ∧
      b.wip.id ∉ keysOf hir'.blocks := by
  refine ⟨runOps (Builder.new ⟨0⟩) [.terminate .returnT .Block],
    ⟨0, [(0, ⟨0, .Block, [], ⟨0, .returnT⟩, []⟩)]⟩, rfl, rfl, ?_⟩
  exact build_reachable_completed ⟨0⟩ [.terminate .returnT .Block] _ _ rfl rfl

/- ===== Scope analysis (forget_semantic_analysis/src/analyzer.rs) =====

The analyzer's collaborator `ScopeManager` (scope table, declaration/reference/
label records, diagnostics, node-association maps) lives in a crate that is not
under src/; its operations are modelled from the spec (section 4.1), each
marked in its doc comment. The analyzer functions themselves follow the source.
-/

abbrev ScopeId := Nat
abbrev DeclarationId := Nat
abbrev ReferenceId := Nat
abbrev LabelId := Nat

/-- Syntax-tree node identity (the key of the node-association maps). -/
abbrev AstNode := Nat

/-- An opaque source range token. -/
abbrev SourceRange := Nat

/-- Scope kinds (spec section 3). -/
inductive ScopeKind
  | Module
  | Function
  | Block
  | For
  | Switch
  | CatchClause
deriving DecidableEq

/-- Declaration kinds (spec section 3). -/
inductive DeclarationKind
  | Var
  | LetConst
  | FunctionDeclaration
  | Import
  | Parameter
  | CatchClause
deriving DecidableEq

/-- Reference kinds. -/
inductive ReferenceKind
  | Read
  | Write
  | ReadWrite
deriving DecidableEq

/-- Label kinds. -/
inductive LabelKind
  | Loop
  | Other
deriving DecidableEq

/-- Modelled from the spec: a scope record (id, kind, optional parent). -/
structure Scope where
  id : ScopeId
  kind : ScopeKind
  parent : Option ScopeId
deriving DecidableEq

/-- Modelled from the spec: a declaration record (monotonic id, name, kind,
owning scope). -/
structure Declaration where
  id : DeclarationId
  name : String
  kind : DeclarationKind
  scope : ScopeId
deriving DecidableEq

/-- Modelled from the spec: a reference record (id, kind, resolved declaration). -/
structure Reference where
  id : ReferenceId
  kind : ReferenceKind
  declaration : DeclarationId
deriving DecidableEq

/-- Modelled from the spec: a label record (id, optional name, kind, owning
scope). -/
structure Label where
  id : LabelId
  name : Option String
  kind : LabelKind
  scope : ScopeId
deriving DecidableEq

/-- A diagnostic: message and optional range (`Diagnostic::invalid_syntax`). -/
structure Diagnostic where
  message : String
  range : Option SourceRange
deriving DecidableEq

/-- Modelled from the spec: the Scope Table (scope tree, record lists,
diagnostics, the four node-association maps, and the monotonic id counters). -/
structure ScopeManager where
  scopes : List Scope
  declarations : List Declaration
  references : List Reference
  labels : List Label
  diagnostics : List Diagnostic
  node_scopes : List (AstNode × ScopeId)
  node_declarations : List (AstNode × DeclarationId)
  node_references : List (AstNode × ReferenceId)
  node_labels : List (AstNode × LabelId)
  nextScopeId : Nat
  nextDeclarationId : Nat
  nextReferenceId : Nat
  nextLabelId : Nat
deriving DecidableEq

/-- Modelled from the spec: the most recent declaration of the name directly in
the given scope (duplicates resolve to the most recently added one). -/
def findDeclInScope (decls : List Declaration) (scope : ScopeId) (name : String) :
    Option Declaration :=
  (decls.filter (fun d => d.scope == scope && d.name == name)).getLast?

/-- Modelled from the spec: find the scope record with the given id. -/
def findScope (scopes : List Scope) (id : ScopeId) : Option Scope :=
  scopes.find? (fun s => s.id == id)

/-- Modelled from the spec: `lookup_declaration` — search the given scope, then
walk ancestors, returning the nearest match (lexical shadowing). The parent
walk is fuel-bounded; the caller supplies fuel exceeding the scope count. -/
def lookupDeclGo (scopes : List Scope) (decls : List Declaration) :
    Nat → ScopeId → String → Option Declaration
  | 0, _, _ => none
  | fuel + 1, scope, name =>
    match findDeclInScope decls scope name with
    | some d => some d
    | none =>
      match findScope scopes scope with
      | some sc =>
        match sc.parent with
        | some p => lookupDeclGo scopes decls fuel p name
        | none => none
      | none => none

/-- Modelled from the spec: `ScopeManager::lookup_declaration`. -/
def ScopeManager.lookupDeclaration (m : ScopeManager) (scope : ScopeId) (name : String) :
    Option Declaration :=
  lookupDeclGo m.scopes m.declarations (m.scopes.length + 1) scope name

/-- Modelled from the spec: eligibility of a declaration for a deferred
reference carrying a next-declaration-id snapshot — hoistable kinds
(function/var/import and the parameter-like kinds) resolve regardless of
order; block-scoped (let/const-equivalent) declarations only when created
before the snapshot. -/
def declEligible (d : Declaration) (nextDeclaration : DeclarationId) : Bool :=
  !(d.kind == DeclarationKind.LetConst) || decide (d.id < nextDeclaration)

/-- Modelled from the spec: the most recent eligible declaration of the name
directly in the given scope. -/
def findEligibleDeclInScope (decls : List Declaration) (scope : ScopeId) (name : String)
    (nextDeclaration : DeclarationId) : Option Declaration :=
  (decls.filter (fun d =>
    d.scope == scope && d.name == name && declEligible d nextDeclaration)).getLast?

/-- Modelled from the spec: `lookup_reference` — like `lookup_declaration` but
restricted to declarations eligible at the captured counter snapshot. -/
def lookupRefGo (scopes : List Scope) (decls : List Declaration) :
    Nat → ScopeId → String → DeclarationId → Option Declaration
  | 0, _, _, _ => none
  | fuel + 1, scope, name, nextDeclaration =>
    match findEligibleDeclInScope decls scope name nextDeclaration with
    | some d => some d
    | none =>
      match findScope scopes scope with
      | some sc =>
        match sc.parent with
        | some p => lookupRefGo scopes decls fuel p name nextDeclaration
        | none => none
      | none => none

/-- Modelled from the spec: `ScopeManager::lookup_reference`. -/
def ScopeManager.lookupReference (m : ScopeManager) (scope : ScopeId) (name : String)
    (nextDeclaration : DeclarationId) : Option Declaration :=
  lookupRefGo m.scopes m.declarations (m.scopes.length + 1) scope name nextDeclaration

/-- Modelled from the spec: `add_declaration` mints a fresh monotonic id and
registers the declaration. -/
def ScopeManager.addDeclaration (m : ScopeManager) (scope : ScopeId) (name : String)
    (kind : DeclarationKind) : ScopeManager × DeclarationId :=
  ({ m with
      declarations := m.declarations ++ [⟨m.nextDeclarationId, name, kind, scope⟩]
      nextDeclarationId := m.nextDeclarationId + 1 },
    m.nextDeclarationId)

/-- Modelled from the spec: `add_reference` mints a fresh id and registers the
reference record. -/
def ScopeManager.addReference (m : ScopeManager) (kind : ReferenceKind)
    (declaration : DeclarationId) : ScopeManager × ReferenceId :=
  ({ m with
      references := m.references ++ [⟨m.nextReferenceId, kind, declaration⟩]
      nextReferenceId := m.nextReferenceId + 1 },
    m.nextReferenceId)

/-- Modelled from the spec: find the label record with the given id. -/
def ScopeManager.label (m : ScopeManager) (id : LabelId) : Option Label :=
  m.labels.find? (fun l => l.id == id)

/-- An ESTree identifier node as the analyzer consumes it. -/
structure EIdentifier where
  node : AstNode
  name : String
  range : Option SourceRange
deriving DecidableEq

/-- A break statement node: optional label and range. -/
structure BreakStatement where
  node : AstNode
  label : Option EIdentifier
  range : Option SourceRange
deriving DecidableEq

/-- A continue statement node: optional label and range. -/
structure ContinueStatement where
  node : AstNode
  label : Option EIdentifier
  range : Option SourceRange
deriving DecidableEq

/-- A pending (unresolved) reference, capturing the use-site scope, node, name,
kind, range and the next-declaration-id counter at the moment of use. -/
structure UnresolvedReference where
  scope : ScopeId
  ast : AstNode
  name : String
  kind : ReferenceKind
  range : Option SourceRange
  next_declaration : DeclarationId
deriving DecidableEq

/-- The analyzer state: the scope manager being populated, the label stack
(innermost last), the current scope, and the pending references. -/
structure Analyzer where
  manager : ScopeManager
  labels : List LabelId
  current : ScopeId
  unresolved : List UnresolvedReference
deriving DecidableEq

/-- The `visit` of `lookup_break`/`lookup_continue` over the reversed label
stack: a named lookup returns only an exact name match, an unnamed lookup
returns the innermost label unconditionally; other labels are skipped. A stack
id absent from the label table cannot occur in states the analyzer builds
(Rust would panic there); the model skips it. -/
def lookupLabelGo (m : ScopeManager) : List LabelId → Option String → Option Label
  | [], _ => none
  | id :: rest, name =>
    match m.label id with
    | none => lookupLabelGo m rest name
    | some label =>
      match name, label.name with
      | some n, some labelName => if n = labelName then some label else lookupLabelGo m rest name
      | none, _ => some label
      | some _, none => lookupLabelGo m rest name

/-- `Analyzer::lookup_break`: scan the label stack innermost-to-outermost. -/
def Analyzer.lookupBreak (a : Analyzer) (name : Option String) : Option Label :=
  lookupLabelGo a.manager a.labels.reverse name

/-- `Analyzer::lookup_continue`: same scan as `lookup_break` (the Loop check
happens at the continue statement, not here). -/
def Analyzer.lookupContinue (a : Analyzer) (name : Option String) : Option Label :=
  lookupLabelGo a.manager a.labels.reverse name

/-- `Analyzer::visit_reference_identifier`: record a pending reference with the
current scope, name, kind, range and the current next-declaration-id counter;
nothing is resolved here. -/
def Analyzer.visitReferenceIdentifier (a : Analyzer) (name : String) (ast : AstNode)
    (kind : ReferenceKind) (range : Option SourceRange) : Analyzer :=
  { a with
    unresolved := a.unresolved ++
      [⟨a.current, ast, name, kind, range, a.manager.nextDeclarationId⟩] }

/-- `Analyzer::visit_declaration_identifier`: with a declaration kind, diagnose
a duplicate in the same scope but create and register the new declaration
either way; without one, record a pending Write reference (re-assignment). -/
def Analyzer.visitDeclarationIdentifier (a : Analyzer) (ast : EIdentifier)
    (declKind : Option DeclarationKind) : Analyzer :=
  match declKind with
  | some declKind =>
    let previous := a.manager.lookupDeclaration a.current ast.name
    let m1 : ScopeManager :=
      match previous with
      | some previousDeclaration =>
        if previousDeclaration.scope = a.current then
          { a.manager with
            diagnostics := a.manager.diagnostics ++ [⟨"Duplicate declaration", ast.range⟩] }
        else a.manager
      | none => a.manager
    let (m2, id) := m1.addDeclaration a.current ast.name declKind
    { a with
      manager := { m2 with node_declarations := m2.node_declarations ++ [(ast.node, id)] } }
  | none =>
    { a with
      unresolved := a.unresolved ++
        [⟨a.current, ast.node, ast.name, .Write, ast.range, a.manager.nextDeclarationId⟩] }

/-- `Analyzer::visit_break_statement`: resolve the break target; on success
associate the statement node (and the label node, when present) with the
label; otherwise diagnose a non-syntactic break. -/
def Analyzer.visitBreakStatement (a : Analyzer) (ast : BreakStatement) : Analyzer :=
  match a.lookupBreak (ast.label.map (·.name)) with
  | some label =>
    let m1 := { a.manager with node_labels := a.manager.node_labels ++ [(ast.node, label.id)] }
    let m2 :=
      match ast.label with
      | some labelNode =>
        { m1 with node_labels := m1.node_labels ++ [(labelNode.node, label.id)] }
      | none => m1
    { a with manager := m2 }
  | none =>
    { a with
      manager :=
        { a.manager with
          diagnostics := a.manager.diagnostics ++
            [⟨"Non-syntactic break, could not resolve break target", ast.range⟩] } }

/-- `Analyzer::visit_continue_statement`: the diagnostic range is the label's
range when labeled, else the statement's; resolve the continue target; when it
resolves to a non-Loop label, diagnose but still record the node-label
associations; when unresolved, diagnose a non-syntactic continue. -/
def Analyzer.visitContinueStatement (a : Analyzer) (ast : ContinueStatement) : Analyzer :=
  let range :=
    match ast.label with
    | some label => label.range
    | none => ast.range
  match a.lookupContinue (ast.label.map (·.name)) with
  | some label =>
    let m0 :=
      if label.kind ≠ LabelKind.Loop then
        { a.manager with
          diagnostics := a.manager.diagnostics ++
            [⟨"Invalid continue statement, the named label must be for a loop", range⟩] }
      else a.manager
    let m1 := { m0 with node_labels := m0.node_labels ++ [(ast.node, label.id)] }
    let m2 :=
      match ast.label with
      | some labelNode =>
        { m1 with node_labels := m1.node_labels ++ [(labelNode.node, label.id)] }
      | none => m1
    { a with manager := m2 }
  | none =>
    { a with
      manager :=
        { a.manager with
          diagnostics := a.manager.diagnostics ++
            [⟨"Non-syntactic continue, could not resolve continue target", range⟩] } }

/-- `Analyzer::complete`, the loop body: resolve each pending reference exactly
once in order; a resolved one creates a reference record and the node
association, an unresolved one only emits the "Undefined variable" diagnostic
at the reference's range. -/
def completeGo (m : ScopeManager) : List UnresolvedReference → ScopeManager
  | [] => m
  | r :: rest =>
    match m.lookupReference r.scope r.name r.next_declaration with
    | some declaration =>
      let (m1, id) := m.addReference r.kind declaration.id
      completeGo { m1 with node_references := m1.node_references ++ [(r.ast, id)] } rest
    | none =>
      completeGo
        { m with diagnostics := m.diagnostics ++ [⟨"Undefined variable", r.range⟩] } rest

/-- `Analyzer::complete`: run deferred resolution over all pending references. -/
def Analyzer.complete (a : Analyzer) : ScopeManager :=
  completeGo a.manager a.unresolved

/- ===== JSX element names ===== -/

/-- Rust's `char::to_ascii_uppercase`. -/
def asciiToUpper (c : Char) : Char :=
  if 'a' ≤ c ∧ c ≤ 'z' then Char.ofNat (c.toNat - 32) else c

/-- A JSX member-expression object: nested member accesses ending in an
identifier (JSX has no computed members). -/
inductive JSXMemberObject
  | ident (i : EIdentifier)
  | member (object : JSXMemberObject) (property : EIdentifier)
deriving DecidableEq

/-- A JSX element name: plain identifier, member expression, or namespaced. -/
inductive JSXElementName
  | identifier (i : EIdentifier)
  | memberExpr (object : JSXMemberObject) (property : EIdentifier)
  | namespacedName (ns : EIdentifier) (name : EIdentifier)
deriving DecidableEq

/-- The root identifier of a member-object chain. -/
def rootOfMemberObject : JSXMemberObject → EIdentifier
  | .ident i => i
  | .member o _ => rootOfMemberObject o

/-- Modelled from the spec: `JSXElementName::root_name` — the name of the root
identifier the element name resolves through. -/
def JSXElementName.rootName : JSXElementName → String
  | .identifier i => i.name
  | .memberExpr o _ => (rootOfMemberObject o).name
  | .namespacedName ns _ => ns.name

/-- `Analyzer::visit_jsxidentifier`: a Read reference. -/
def Analyzer.visitJSXIdentifier (a : Analyzer) (i : EIdentifier) : Analyzer :=
  a.visitReferenceIdentifier i.name i.node .Read i.range

/-- `Analyzer::visit_jsxmember_expression` composed with the
member-or-identifier dispatcher: descend through `.object` (the property is
never a variable reference) until the root identifier, which is visited. -/
def Analyzer.visitJSXMemberObject (a : Analyzer) : JSXMemberObject → Analyzer
  | .ident i => a.visitJSXIdentifier i
  | .member o _ => a.visitJSXMemberObject o

/-- The element-name handling of `Analyzer::visit_jsxopening_element` (the
attribute traversal that follows it in the source is independent of the name
and out of scope of the element-name claims): lowercase-initial plain tags are
builtins and record nothing, an empty name is diagnosed, member/namespaced
names are visited through their root unless the root is `this`. -/
def Analyzer.visitJSXOpeningElementName (a : Analyzer) (name : JSXElementName) : Analyzer :=
  let rootName := name.rootName
  match name with
  | .identifier i =>
    match rootName.data with
    | first :: _ =>
      if first = asciiToUpper first then a.visitJSXIdentifier i else a
    | [] =>
      { a with
        manager :=
          { a.manager with
            diagnostics := a.manager.diagnostics ++
              [⟨"Expected JSXOpeningElement.name to be non-empty", i.range⟩] } }
  | .memberExpr o _ =>
    if rootName ≠ "this" then a.visitJSXMemberObject o else a
  | .namespacedName ns _ =>
    if rootName ≠ "this" then a.visitJSXIdentifier ns else a

/- ===== Claim C5: deferred reference resolution ===== -/

/-- The resolution a pending reference will receive, as a function of the
(fixed) scope tree and declaration list. -/
def pendingResolution (scopes : List Scope) (decls : List Declaration)
    (p : UnresolvedReference) : Option Declaration :=
  lookupRefGo scopes decls (scopes.length + 1) p.scope p.name p.next_declaration

/-- The (kind, declaration) pairs of the references minted by resolution. -/
def resolvedPairsOf (scopes : List Scope) (decls : List Declaration)
    (pendings : List UnresolvedReference) : List (ReferenceKind × DeclarationId) :=
  pendings.filterMap
    (fun p => (pendingResolution scopes decls p).map (fun d => (p.kind, d.id)))

/-- The diagnostics emitted for the pending references that fail to resolve. -/
def failedDiagsOf (scopes : List Scope) (decls : List Declaration)
    (pendings : List UnresolvedReference) : List Diagnostic :=
  (pendings.filter (fun p => (pendingResolution scopes decls p).isNone)).map
    (fun p => ⟨"Undefined variable", p.range⟩)

/-- The ast nodes that get a node-reference association. -/
def resolvedAstsOf (scopes : List Scope) (decls : List Declaration)
    (pendings : List UnresolvedReference) : List AstNode :=
  (pendings.filter (fun p => (pendingResolution scopes decls p).isSome)).map (·.ast)

theorem completeGo_spec (scopes : List Scope) (decls : List Declaration) :
    ∀ (pendings : List UnresolvedReference) (m : ScopeManager),
    m.scopes = scopes → m.declarations = decls →
    (completeGo m pendings).scopes = scopes ∧
    (completeGo m pendings).declarations = decls ∧
    (completeGo m pendings).references.map (fun r => (r.kind, r.declaration)) =
      m.references.map (fun r => (r.kind, r.declaration)) ++
        resolvedPairsOf scopes decls pendings ∧
    (completeGo m pendings).diagnostics =
      m.diagnostics ++ failedDiagsOf scopes decls pendings ∧
    (completeGo m pendings).node_references.map (·.1) =
      m.node_references.map (·.1) ++ resolvedAstsOf scopes decls pendings := by
  intro pendings
  induction pendings with
  | nil =>
    intro m h1 h2
    exact ⟨h1, h2, by simp [completeGo, resolvedPairsOf], by simp [completeGo, failedDiagsOf],
      by simp [completeGo, resolvedAstsOf]⟩
  | cons r rest ih =>
    intro m h1 h2
    have hlkp : m.lookupReference r.scope r.name r.next_declaration =
        pendingResolution scopes decls r := by
      unfold ScopeManager.lookupReference pendingResolution
      rw [h1, h2]
    rw [completeGo]
    cases hres : pendingResolution scopes decls r with
    | some d =>
      rw [hlkp, hres]
      simp only [ScopeManager.addReference]
      obtain ⟨g1, g2, g3, g4, g5⟩ := ih
        { m with
          references := m.references ++ [⟨m.nextReferenceId, r.kind, d.id⟩]
          node_references := m.node_references ++ [(r.ast, m.nextReferenceId)]
          nextReferenceId := m.nextReferenceId + 1 } h1 h2
      refine ⟨g1, g2, ?_, ?_, ?_⟩
      · rw [g3]
        simp only [List.map_append]
        rw [List.append_assoc]
        congr 1
        show ([(r.kind, d.id)] : List (ReferenceKind × DeclarationId)) ++ _ = _
        unfold resolvedPairsOf
        rw [List.filterMap_cons]
        rw [hres]
        rfl
      · rw [g4]
        congr 1
        unfold failedDiagsOf
        rw [List.filter_cons]
        rw [show ((pendingResolution scopes decls r).isNone : Bool) = false from by
          rw [hres]; rfl]
        simp only [Bool.false_eq_true, if_false]
      · rw [g5]
        simp only [List.map_append]
        rw [List.append_assoc]
        congr 1
        show ([r.ast] : List AstNode) ++ _ = _
        unfold resolvedAstsOf
        rw [List.filter_cons]
        rw [show ((pendingResolution scopes decls r).isSome : Bool) = true from by
          rw [hres]; rfl]
        simp
    | none =>
      rw [hlkp, hres]
      obtain ⟨g1, g2, g3, g4, g5⟩ := ih
        { m with diagnostics := m.diagnostics ++ [⟨"Undefined variable", r.range⟩] } h1 h2
      refine ⟨g1, g2, ?_, ?_, ?_⟩
      · rw [g3]
        congr 1
        unfold resolvedPairsOf
        rw [List.filterMap_cons, hres]
        rfl
      · rw [g4]
        simp only [List.append_assoc]
        congr 1
        show ([⟨"Undefined variable", r.range⟩] : List Diagnostic) ++ _ = _
        unfold failedDiagsOf
        rw [List.filter_cons]
        rw [show ((pendingResolution scopes decls r).isNone : Bool) = true from by
          rw [hres]; rfl]
        simp
      · rw [g5]
        congr 1
        unfold resolvedAstsOf
        rw [List.filter_cons]
        rw [show ((pendingResolution scopes decls r).isSome : Bool) = false from by
          rw [hres]; rfl]
        simp only [Bool.false_eq_true, if_false]

/-- C5: every identifier use is recorded as a pending reference capturing the
use-site scope, name, kind, range and the current next-declaration-id counter,
with the manager untouched (no resolution during traversal); after traversal,
`complete` resolves each pending reference exactly once in order: resolvable
ones mint exactly one reference record (of the captured kind, bound to the
resolved declaration) plus one node association, and each unresolvable one
emits exactly one "Undefined variable" diagnostic at its captured range with no
reference record and no node association. -/
theorem deferred_reference_resolution (a : Analyzer) :
    (∀ name ast kind range,
      (a.visitReferenceIdentifier name ast kind range).manager = a.manager ∧
      (a.visitReferenceIdentifier name ast kind range).labels = a.labels ∧
      (a.visitReferenceIdentifier name ast kind range).current = a.current ∧
      (a.visitReferenceIdentifier name ast kind range).unresolved =
        a.unresolved ++ [⟨a.current, ast, name, kind, range, a.manager.nextDeclarationId⟩]) ∧
    (a.complete.references.map (fun r => (r.kind, r.declaration)) =
      a.manager.references.map (fun r => (r.kind, r.declaration)) ++
        resolvedPairsOf a.manager.scopes a.manager.declarations a.unresolved) ∧
    (a.complete.diagnostics = a.manager.diagnostics ++
      failedDiagsOf a.manager.scopes a.manager.declarations a.unresolved) ∧
    (a.complete.node_references.map (·.1) = a.manager.node_references.map (·.1) ++
      resolvedAstsOf a.manager.scopes a.manager.declarations a.unresolved) := by
  obtain ⟨-, -, g3, g4, g5⟩ :=
    completeGo_spec a.manager.scopes a.manager.declarations a.unresolved a.manager rfl rfl
  exact ⟨fun name ast kind range => ⟨rfl, rfl, rfl, rfl⟩, g3, g4, g5⟩

/- ===== Claim C6: duplicate declarations are diagnosed but still created ===== -/

/-- C6: declaring a name already declared in the *same* scope diagnoses
"Duplicate declaration" (a shadowing declaration from an outer scope does
not), and in all cases a fresh declaration — with an id distinct from every
existing one — is created, registered under the node, and becomes the binding
that subsequent lookups of that name in this scope return. -/
theorem duplicate_declaration_recovery (a : Analyzer) (ast : EIdentifier)
    (k : DeclarationKind)
    (hfresh : ∀ d ∈ a.manager.declarations, d.id < a.manager.nextDeclarationId) :
    (a.visitDeclarationIdentifier ast (some k)).manager.declarations =
      a.manager.declarations ++
        [⟨a.manager.nextDeclarationId, ast.name, k, a.current⟩] ∧
    (ast.node, a.manager.nextDeclarationId) ∈
      (a.visitDeclarationIdentifier ast (some k)).manager.node_declarations ∧
    (∀ d ∈ a.manager.declarations, d.id ≠ a.manager.nextDeclarationId) ∧
    (a.visitDeclarationIdentifier ast (some k)).manager.lookupDeclaration a.current ast.name =
      some ⟨a.manager.nextDeclarationId, ast.name, k, a.current⟩ ∧
    (∀ prev, a.manager.lookupDeclaration a.current ast.name = some prev →
      prev.scope = a.current →
      (a.visitDeclarationIdentifier ast (some k)).manager.diagnostics =
        a.manager.diagnostics ++ [⟨"Duplicate declaration", ast.range⟩]) ∧
    ((∀ prev, a.manager.lookupDeclaration a.current ast.name = some prev →
        prev.scope ≠ a.current) →
      (a.visitDeclarationIdentifier ast (some k)).manager.diagnostics =
        a.manager.diagnostics) := by
  have happend : lookupDeclGo a.manager.scopes
      (a.manager.declarations ++ [⟨a.manager.nextDeclarationId, ast.name, k, a.current⟩])
      (a.manager.scopes.length + 1) a.current ast.name =
      some ⟨a.manager.nextDeclarationId, ast.name, k, a.current⟩ := by
    rw [lookupDeclGo]
    have hfind : findDeclInScope
        (a.manager.declarations ++ [⟨a.manager.nextDeclarationId, ast.name, k, a.current⟩])
        a.current ast.name =
        some ⟨a.manager.nextDeclarationId, ast.name, k, a.current⟩ := by
      unfold findDeclInScope
      rw [List.filter_append]
      have hsing : List.filter (fun d => d.scope == a.current && d.name == ast.name)
          [(⟨a.manager.nextDeclarationId, ast.name, k, a.current⟩ : Declaration)] =
          [(⟨a.manager.nextDeclarationId, ast.name, k, a.current⟩ : Declaration)] := by
        simp
      rw [hsing, List.getLast?_concat]
    rw [hfind]
  cases hprev : a.manager.lookupDeclaration a.current ast.name with
  | none =>
    have ha' : a.visitDeclarationIdentifier ast (some k) =
        { a with
          manager :=
            { a.manager with
              declarations := a.manager.declarations ++
                [⟨a.manager.nextDeclarationId, ast.name, k, a.current⟩]
              nextDeclarationId := a.manager.nextDeclarationId + 1
              node_declarations := a.manager.node_declarations ++
                [(ast.node, a.manager.nextDeclarationId)] } } := by
      simp only [Analyzer.visitDeclarationIdentifier, ScopeManager.addDeclaration, hprev]
    rw [ha']
    refine ⟨rfl, by simp, fun d hd => Nat.ne_of_lt (hfresh d hd), happend, ?_, fun _ => rfl⟩
    intro prev hp
    cases hp
  | some prev =>
    by_cases hscope : prev.scope = a.current
    · have ha' : a.visitDeclarationIdentifier ast (some k) =
          { a with
            manager :=
              { a.manager with
                declarations := a.manager.declarations ++
                  [⟨a.manager.nextDeclarationId, ast.name, k, a.current⟩]
                diagnostics := a.manager.diagnostics ++ [⟨"Duplicate declaration", ast.range⟩]
                nextDeclarationId := a.manager.nextDeclarationId + 1
                node_declarations := a.manager.node_declarations ++
                  [(ast.node, a.manager.nextDeclarationId)] } } := by
        simp only [Analyzer.visitDeclarationIdentifier, ScopeManager.addDeclaration, hprev,
          if_pos hscope]
      rw [ha']
      refine ⟨rfl, by simp, fun d hd => Nat.ne_of_lt (hfresh d hd), happend,
        fun _ _ _ => rfl, ?_⟩
      intro hall
      exact absurd hscope (hall prev rfl)
    · have ha' : a.visitDeclarationIdentifier ast (some k) =
          { a with
            manager :=
              { a.manager with
                declarations := a.manager.declarations ++
                  [⟨a.manager.nextDeclarationId, ast.name, k, a.current⟩]
                nextDeclarationId := a.manager.nextDeclarationId + 1
                node_declarations := a.manager.node_declarations ++
                  [(ast.node, a.manager.nextDeclarationId)] } } := by
        simp only [Analyzer.visitDeclarationIdentifier, ScopeManager.addDeclaration, hprev,
          if_neg hscope]
      rw [ha']
      refine ⟨rfl, by simp, fun d hd => Nat.ne_of_lt (hfresh d hd), happend, ?_, fun _ => rfl⟩
      intro prev2 hp2 hsc2
      cases hp2
      exact absurd hsc2 hscope

/-- A manager with one module scope and one existing let-declaration of x. -/
def c6Manager : ScopeManager :=
  ⟨[⟨0, .Module, none⟩], [⟨0, "x", .LetConst, 0⟩], [], [], [], [], [], [], [], 1, 1, 0, 0⟩

/-- An analyzer sitting in the module scope of `c6Manager`. -/
def c6Analyzer : Analyzer :=
  ⟨c6Manager, [], 0, []⟩

theorem duplicate_declaration_recovery_witness :
    (∀ d ∈ c6Analyzer.manager.declarations, d.id < c6Analyzer.manager.nextDeclarationId) ∧
    c6Analyzer.manager.lookupDeclaration 0 "x" = some ⟨0, "x", .LetConst, 0⟩ ∧
    (c6Analyzer.visitDeclarationIdentifier ⟨5, "x", some 7⟩ (some .LetConst)).manager.declarations
      = c6Analyzer.manager.declarations ++ [⟨1, "x", .LetConst, 0⟩] ∧
    (c6Analyzer.visitDeclarationIdentifier ⟨5, "x", some 7⟩
        (some .LetConst)).manager.lookupDeclaration 0 "x" = some ⟨1, "x", .LetConst, 0⟩ ∧
    (c6Analyzer.visitDeclarationIdentifier ⟨5, "x", some 7⟩ (some .LetConst)).manager.diagnostics
      = c6Analyzer.manager.diagnostics ++ [⟨"Duplicate declaration", some 7⟩] := by
  have h := duplicate_declaration_recovery c6Analyzer ⟨5, "x", some 7⟩ .LetConst
    (by decide)
  exact ⟨by decide, by decide, h.1, h.2.2.2.1, h.2.2.2.2.1 ⟨0, "x", .LetConst, 0⟩ (by decide) rfl⟩

/- ===== Claim C7: break/continue label resolution ===== -/

theorem lookupLabelGo_named (m : ScopeManager) (n : String) :
    ∀ l : List LabelId,
    lookupLabelGo m l (some n) =
      (l.filterMap m.label).find? (fun lab => lab.name == some n) := by
  intro l
  induction l with
  | nil => rfl
  | cons id rest ih =>
    rw [lookupLabelGo, List.filterMap_cons]
    cases hl : m.label id with
    | none => exact ih
    | some label =>
      obtain ⟨lid, lname, lkind, lscope⟩ := label
      cases lname with
      | none =>
        have hbeq : ((⟨lid, none, lkind, lscope⟩ : Label).name == some n) = false := rfl
        rw [List.find?_cons, hbeq]
        exact ih
      | some labelName =>
        by_cases he : n = labelName
        · subst he
          have hbeq : ((⟨lid, some n, lkind, lscope⟩ : Label).name == some n) = true := by
            simp
          rw [List.find?_cons, hbeq]
          show (if n = n then some (⟨lid, some n, lkind, lscope⟩ : Label)
            else lookupLabelGo m rest (some n)) = some ⟨lid, some n, lkind, lscope⟩
          rw [if_pos rfl]
        · have hbeq : ((⟨lid, some labelName, lkind, lscope⟩ : Label).name == some n) =
              false := by
            rw [show (⟨lid, some labelName, lkind, lscope⟩ : Label).name =
              some labelName from rfl]
            rw [beq_eq_false_iff_ne]
            intro hc
            exact he (Option.some.inj hc).symm
          rw [List.find?_cons, hbeq]
          show (if n = labelName then some (⟨lid, some labelName, lkind, lscope⟩ : Label)
            else lookupLabelGo m rest (some n)) = _
          rw [if_neg he]
          exact ih

theorem lookupLabelGo_unnamed (m : ScopeManager) :
    ∀ l : List LabelId,
    lookupLabelGo m l none = (l.filterMap m.label).head? := by
  intro l
  induction l with
  | nil => rfl
  | cons id rest ih =>
    rw [lookupLabelGo, List.filterMap_cons]
    cases hl : m.label id with
    | none => exact ih
    | some label => rfl

/-- C7: label resolution scans the stack innermost-to-outermost — an unnamed
break resolves to the innermost in-scope label unconditionally, a named break
only to an exact name match; a continue that resolves to a non-Loop label
diagnoses "Invalid continue statement, the named label must be for a loop"
while still recording the node-to-label association (a Loop label adds no
diagnostic); an unresolved break or continue diagnoses the corresponding
non-syntactic error. -/
theorem label_resolution (a : Analyzer) :
    (∀ n, a.lookupBreak (some n) =
      (a.labels.reverse.filterMap a.manager.label).find? (fun lab => lab.name == some n)) ∧
    (a.lookupBreak none = (a.labels.reverse.filterMap a.manager.label).head?) ∧
    (∀ ast : ContinueStatement, ∀ label : Label,
      a.lookupContinue (ast.label.map (·.name)) = some label →
      ((ast.node, label.id) ∈ (a.visitContinueStatement ast).manager.node_labels ∧
        (label.kind ≠ .Loop →
          (a.visitContinueStatement ast).manager.diagnostics =
            a.manager.diagnostics ++
              [⟨"Invalid continue statement, the named label must be for a loop",
                match ast.label with
                | some l => l.range
                | none => ast.range⟩]) ∧
        (label.kind = .Loop →
          (a.visitContinueStatement ast).manager.diagnostics = a.manager.diagnostics))) ∧
    (∀ ast : ContinueStatement, a.lookupContinue (ast.label.map (·.name)) = none →
      (a.visitContinueStatement ast).manager.diagnostics =
        a.manager.diagnostics ++
          [⟨"Non-syntactic continue, could not resolve continue target",
            match ast.label with
            | some l => l.range
            | none => ast.range⟩]) ∧
    (∀ ast : BreakStatement, a.lookupBreak (ast.label.map (·.name)) = none →
      (a.visitBreakStatement ast).manager.diagnostics =
        a.manager.diagnostics ++
          [⟨"Non-syntactic break, could not resolve break target", ast.range⟩]) := by
  refine ⟨fun n => lookupLabelGo_named a.manager n a.labels.reverse,
    lookupLabelGo_unnamed a.manager a.labels.reverse, ?_, ?_, ?_⟩
  · intro ast label hres
    unfold Analyzer.visitContinueStatement
    rw [hres]
    simp only
    by_cases hkind : label.kind = LabelKind.Loop
    · rw [if_neg (by simp [hkind])]
      refine ⟨?_, fun hn => absurd hkind hn, fun _ => ?_⟩
      · cases ast.label with
        | none => simp
        | some labelNode => simp
      · cases ast.label with
        | none => rfl
        | some labelNode => rfl
    · rw [if_pos (by simp [hkind])]
      refine ⟨?_, fun _ => ?_, fun he => absurd he hkind⟩
      · cases ast.label with
        | none => simp
        | some labelNode => simp
      · cases ast.label with
        | none => rfl
        | some labelNode => rfl
  · intro ast hres
    unfold Analyzer.visitContinueStatement
    rw [hres]
  · intro ast hres
    unfold Analyzer.visitBreakStatement
    rw [hres]

/-- A manager holding two labels: an outer named non-loop label "lbl" (id 0)
and an inner anonymous loop label (id 1). -/
def c7Manager : ScopeManager :=
  ⟨[⟨0, .Module, none⟩], [], [],
    [⟨0, some "lbl", .Other, 0⟩, ⟨1, none, .Loop, 0⟩],
    [], [], [], [], [], 1, 0, 0, 2⟩

/-- An analyzer with label 0 (outer) and label 1 (inner) on the stack. -/
def c7Analyzer : Analyzer :=
  ⟨c7Manager, [0, 1], 0, []⟩

theorem label_resolution_witness :
    c7Analyzer.lookupBreak none = some ⟨1, none, .Loop, 0⟩ ∧
    c7Analyzer.lookupBreak (some "lbl") = some ⟨0, some "lbl", .Other, 0⟩ ∧
    c7Analyzer.lookupContinue (some "lbl") = some ⟨0, some "lbl", .Other, 0⟩ ∧
    ((20, 0) ∈
      (c7Analyzer.visitContinueStatement ⟨20, some ⟨21, "lbl", some 9⟩, some 8⟩).manager.node_labels ∧
    (c7Analyzer.visitContinueStatement ⟨20, some ⟨21, "lbl", some 9⟩, some 8⟩).manager.diagnostics =
      c7Analyzer.manager.diagnostics ++
        [⟨"Invalid continue statement, the named label must be for a loop", some 9⟩]) := by
  have h := label_resolution c7Analyzer
  have hres : c7Analyzer.lookupContinue
      ((some (⟨21, "lbl", some 9⟩ : EIdentifier)).map (·.name)) =
      some ⟨0, some "lbl", .Other, 0⟩ := by decide
  obtain ⟨hc1, hc2, hc3⟩ := h.2.2.1 ⟨20, some ⟨21, "lbl", some 9⟩, some 8⟩
    ⟨0, some "lbl", .Other, 0⟩ hres
  exact ⟨by decide, by decide, by decide, hc1, hc2 (by decide)⟩

/- ===== Claim C8: JSX element-name references ===== -/

theorem visitJSXMemberObject_eq (a : Analyzer) :
    ∀ o : JSXMemberObject,
    a.visitJSXMemberObject o =
      a.visitReferenceIdentifier (rootOfMemberObject o).name (rootOfMemberObject o).node
        .Read (rootOfMemberObject o).range := by
  intro o
  induction o with
  | ident i => rfl
  | member o2 property ih => exact ih

/-- The initial analyzer: a fresh manager with only the module scope. -/
def analyzer0 : Analyzer :=
  ⟨⟨[⟨0, .Module, none⟩], [], [], [], [], [], [], [], [], 1, 0, 0, 0⟩, [], 0, []⟩

/-- C8 counterexample to the claim as stated: the spec's case rule says a
lowercase-initial root records no reference, but visiting the member-expression
element name `foo.Bar` records a Read pending reference for its lowercase root
`foo` — member/namespaced names are not subject to the case rule in the code,
only to the root-is-`this` exception. -/
theorem jsx_member_case_rule_counterexample :
    JSXElementName.rootName
      (.memberExpr (.ident ⟨10, "foo", none⟩) ⟨11, "Bar", none⟩) = "foo" ∧
    (∀ c, "foo".data.head? = some c → ¬ c = asciiToUpper c) ∧
    (analyzer0.visitJSXOpeningElementName
        (.memberExpr (.ident ⟨10, "foo", none⟩) ⟨11, "Bar", none⟩)).unresolved =
      analyzer0.unresolved ++
        [⟨analyzer0.current, 10, "foo", .Read, none, analyzer0.manager.nextDeclarationId⟩] := by
  refine ⟨rfl, ?_, by decide⟩
  intro c hc
  cases hc
  decide

theorem asciiToUpper_fix_of_upper {c : Char} (_ : 'A' ≤ c) (h2 : c ≤ 'Z') :
    c = asciiToUpper c := by
  unfold asciiToUpper
  have hn : ¬ ('a' ≤ c ∧ c ≤ 'z') := by
    rintro ⟨hl, -⟩
    have hlo : 97 ≤ c.toNat := hl
    have hhi : c.toNat ≤ 90 := h2
    omega
  rw [if_neg hn]

theorem asciiToUpper_ne_of_lower {c : Char} (h1 : 'a' ≤ c) (h2 : c ≤ 'z') :
    ¬ c = asciiToUpper c := by
  unfold asciiToUpper
  rw [if_pos ⟨h1, h2⟩]
  intro heq
  have hlo : 97 ≤ c.toNat := h1
  have hhi : c.toNat ≤ 122 := h2
  have hvalid : (c.toNat - 32).isValidChar := by
    left
    omega
  have htn : (Char.ofNat (c.toNat - 32)).toNat = c.toNat - 32 := by
    rw [Char.ofNat, dif_pos hvalid]
    rfl
  have hcombined : c.toNat = c.toNat - 32 := (congrArg Char.toNat heq).trans htn
  omega

/-- C8 as amended: a plain tag name starting with a lowercase letter records no
reference (builtin) while one starting with an uppercase letter records a Read
reference; a member-expression or namespaced element name records a Read
pending reference through its root identifier regardless of case, except that
a root name of `this` records no reference. -/
theorem jsx_element_name_references (a : Analyzer) :
    (∀ i : EIdentifier, ∀ c cs, i.name.data = c :: cs →
      (('A' ≤ c ∧ c ≤ 'Z') →
        (a.visitJSXOpeningElementName (.identifier i)).unresolved =
          a.unresolved ++
            [⟨a.current, i.node, i.name, .Read, i.range, a.manager.nextDeclarationId⟩]) ∧
      (('a' ≤ c ∧ c ≤ 'z') → a.visitJSXOpeningElementName (.identifier i) = a)) ∧
    (∀ o property,
      ((rootOfMemberObject o).name ≠ "this" →
        (a.visitJSXOpeningElementName (.memberExpr o property)).unresolved =
          a.unresolved ++
            [⟨a.current, (rootOfMemberObject o).node, (rootOfMemberObject o).name, .Read,
              (rootOfMemberObject o).range, a.manager.nextDeclarationId⟩]) ∧
      ((rootOfMemberObject o).name = "this" →
        a.visitJSXOpeningElementName (.memberExpr o property) = a)) ∧
    (∀ ns nm : EIdentifier,
      (ns.name ≠ "this" →
        (a.visitJSXOpeningElementName (.namespacedName ns nm)).unresolved =
          a.unresolved ++
            [⟨a.current, ns.node, ns.name, .Read, ns.range, a.manager.nextDeclarationId⟩]) ∧
      (ns.name = "this" → a.visitJSXOpeningElementName (.namespacedName ns nm) = a)) := by
  refine ⟨?_, ?_, ?_⟩
  · intro i c cs hdata
    have hred : a.visitJSXOpeningElementName (.identifier i) =
        if c = asciiToUpper c then a.visitJSXIdentifier i else a := by
      unfold Analyzer.visitJSXOpeningElementName
      simp only [JSXElementName.rootName]
      rw [hdata]
    rw [hred]
    constructor
    · intro hupper
      rw [if_pos (asciiToUpper_fix_of_upper hupper.1 hupper.2)]
      rfl
    · intro hlower
      rw [if_neg (asciiToUpper_ne_of_lower hlower.1 hlower.2)]
  · intro o property
    unfold Analyzer.visitJSXOpeningElementName
    simp only [JSXElementName.rootName]
    constructor
    · intro hthis
      rw [if_pos hthis, visitJSXMemberObject_eq]
      rfl
    · intro hthis
      rw [if_neg (by simp [hthis])]
  · intro ns nm
    unfold Analyzer.visitJSXOpeningElementName
    simp only [JSXElementName.rootName]
    constructor
    · intro hthis
      rw [if_pos hthis]
      rfl
    · intro hthis
      rw [if_neg (by simp [hthis])]

theorem jsx_element_name_references_witness :
    ((analyzer0.visitJSXOpeningElementName (.identifier ⟨30, "Div", some 3⟩)).unresolved =
      analyzer0.unresolved ++
        [⟨analyzer0.current, 30, "Div", .Read, some 3,
          analyzer0.manager.nextDeclarationId⟩]) ∧
    (analyzer0.visitJSXOpeningElementName (.identifier ⟨31, "div", some 4⟩) = analyzer0) ∧
    ((analyzer0.visitJSXOpeningElementName
        (.namespacedName ⟨32, "svg", some 5⟩ ⟨33, "path", some 6⟩)).unresolved =
      analyzer0.unresolved ++
        [⟨analyzer0.current, 32, "svg", .Read, some 5,
          analyzer0.manager.nextDeclarationId⟩]) ∧
    (analyzer0.visitJSXOpeningElementName
        (.memberExpr (.ident ⟨34, "this", some 7⟩) ⟨35, "Bar", none⟩) = analyzer0) := by
  have h := jsx_element_name_references analyzer0
  refine ⟨(h.1 ⟨30, "Div", some 3⟩ 'D' ['i', 'v'] rfl).1 (by decide),
    (h.1 ⟨31, "div", some 4⟩ 'd' ['i', 'v'] rfl).2 (by decide),
    (h.2.2 ⟨32, "svg", some 5⟩ ⟨33, "path", some 6⟩).1 (by decide),
    (h.2.1 (.ident ⟨34, "this", some 7⟩) ⟨35, "Bar", none⟩).2 (by decide)⟩

end Spec2Proof
